import Mathlib

/-!
# fabtracker-data: the CSV catalog generator (`main.go`)

A shallow embedding of the catalog generator: the card record, the two label
tables, `uniqueID`, the row rendering of `main`, the ordering that `main`
obtains from `sort.Sort` through the `Len`/`Less`/`Swap` methods of `Cards`,
and the run of `main` over an explicit file system.

Go strings are modelled as Lean strings.  Every string the program handles
comes out of `json.Unmarshal`, which only yields valid UTF-8, and on valid
UTF-8 the bytewise comparison of Go coincides with the lexicographic
comparison of code points used here.
-/

namespace FabTracker

/-! ## Data model -/

/-- A value decoded by `json.Unmarshal` into a Go `interface{}`. Numbers are
kept as their literal text. -/
inductive Any where
  | null : Any
  | bool (b : Bool) : Any
  | number (lit : String) : Any
  | str (s : String) : Any
  | arr (xs : List Any) : Any
  | obj (kvs : List (String × Any)) : Any

instance : Inhabited Any := ⟨Any.null⟩

/-- The struct `Card`: one printing, as decoded from the dataset. -/
structure Card where
  UniqueID : String
  Name : String
  Pitch : String
  Cost : String
  Power : String
  Defense : String
  Health : String
  Intelligence : String
  Types : List String
  CardKeywords : List Any
  AbilitiesAndEffects : List Any
  AbilityAndEffectKeywords : List Any
  GrantedKeywords : List Any
  RemovedKeywords : List Any
  InteractsWithKeywords : List Any
  FunctionalText : String
  FunctionalTextPlain : String
  TypeText : String
  PlayedHorizontally : Bool
  BlitzLegal : Bool
  CcLegal : Bool
  CommonerLegal : Bool
  BlitzLivingLegend : Bool
  CcLivingLegend : Bool
  BlitzBanned : Bool
  CcBanned : Bool
  CommonerBanned : Bool
  UpfBanned : Bool
  BlitzSuspended : Bool
  CcSuspended : Bool
  CommonerSuspended : Bool
  PrintingUniqueID : String
  SetPrintingUniqueID : String
  ID : String
  SetID : String
  Edition : String
  Foiling : String
  Rarity : String
  Artist : String
  ArtVariation : Any
  FlavorText : String
  FlavorTextPlain : String
  ImageURL : String
  TcgplayerProductID : String
  TcgplayerURL : String
deriving Inhabited

/-- The slice type `Cards`. -/
abbrev Cards := List Card

/-! ## Go primitives used by the program -/

/-- The index expression `m[k]` on a `map[string]string`: the value stored
under `k`, or the zero value `""` when `k` is not a key. -/
def mapIndex (m : List (String × String)) (k : String) : String :=
  (m.lookup k).getD ""

/-- The comparison `a < b` of two Go strings. -/
def stringLess (a b : String) : Bool :=
  decide (a.data < b.data)

/-- The call `strings.Contains(s, substr)`: `substr` occurs within `s`. -/
def stringsContains (s substr : String) : Bool :=
  decide (substr.data <:+: s.data)

/-- The call `strings.Join(elems, sep)`. -/
def stringsJoin (elems : List String) (sep : String) : String :=
  sep.intercalate elems

/-! ## Label tables and `uniqueID` -/

/-- The map `edition`. -/
def edition : List (String × String) :=
  [("A", "Alpha"), ("F", "1st"), ("U", "Unl"), ("N", "")]

/-- The map `foiling`. -/
def foiling : List (String × String) :=
  [("S", "NF"), ("R", "RF"), ("C", "CF"), ("G", "GF")]

/-- The function `uniqueID`. -/
def uniqueID (card : Card) : String :=
  let uid := card.ID ++ "." ++ mapIndex foiling card.Foiling
  let s := mapIndex edition card.Edition
  if s = "" then uid else uid ++ "." ++ s

/-! ## Row rendering (the body of the inner loop of `main`) -/

/-- The local `name` of the inner loop: the card name, wrapped in double
quotes when it contains a comma. -/
def rowName (c : Card) : String :=
  if stringsContains c.Name "," then "\"" ++ c.Name ++ "\"" else c.Name

/-- The string `s` built by `fmt.Sprintf` for one card. -/
def renderRow (c : Card) : String :=
  uniqueID c ++ "," ++ c.ID ++ "," ++ rowName c ++ "," ++ c.Pitch ++ "," ++
    mapIndex foiling c.Foiling ++ "," ++ mapIndex edition c.Edition ++ "," ++
    c.Rarity ++ "," ++ c.Cost ++ "," ++ c.Power ++ "," ++ c.Defense ++ "," ++
    c.ImageURL ++ "," ++ stringsJoin c.Types "," ++ "\n"

/-! ## The `sort.Interface` methods of `Cards` -/

/-- The method `Len`. -/
def Cards.Len (x : Cards) : Nat := x.length

/-- The method `Less`: `x[i].Name < x[j].Name`. -/
def Cards.Less (x : Cards) (i j : Nat) : Bool :=
  stringLess (x.getD i default).Name (x.getD j default).Name

/-- The method `Swap`: `x[i], x[j] = x[j], x[i]`. -/
def Cards.Swap (x : Cards) (i j : Nat) : Cards :=
  (x.set i (x.getD j default)).set j (x.getD i default)

/-! ## `sort.Sort` of the Go standard library (pattern-defeating quicksort)

`main` orders each decoded slice with `sort.Sort(cards)`.  The routine, as
the standard library has it since Go 1.19, is
embedded here as it runs on `Cards`: every comparison is a call of `Less` and
every move is a call of `Swap`.  Loops whose trip count is known are folds
over the index range; the other loops recurse on an explicit bound. -/

/-- The call `bits.Len(uint(n))`: the number of bits needed to write `n`. -/
def bitsLenAux : Nat → Nat → Nat
  | 0, _ => 0
  | fuel + 1, n => if n = 0 then 0 else bitsLenAux fuel (n / 2) + 1

/-- The call `bits.Len(uint(n))`. -/
def bitsLen (n : Nat) : Nat := bitsLenAux n n

/-- Inner loop of `insertionSort`:
`for j := i; j > a && data.Less(j, j-1); j-- { data.Swap(j, j-1) }`. -/
def insertionSortInner (a : Nat) : Nat → Cards → Cards
  | 0, data => data
  | j + 1, data =>
    if a < j + 1 && data.Less (j + 1) j then
      insertionSortInner a j (data.Swap (j + 1) j)
    else data

/-- The function `insertionSort(data, a, b)`: sorts `data[a:b]`. -/
def insertionSort (data : Cards) (a b : Nat) : Cards :=
  (List.range' (a + 1) (b - (a + 1))).foldl (fun d i => insertionSortInner a i d) data

/-- The loop of `siftDown`, started at `root`. -/
def siftDownLoop (hi first : Nat) : Nat → Nat → Cards → Cards
  | 0, _, data => data
  | fuel + 1, root, data =>
    let child := 2 * root + 1
    if hi ≤ child then data
    else
      let child :=
        if child + 1 < hi && data.Less (first + child) (first + child + 1) then child + 1
        else child
      if !data.Less (first + root) (first + child) then data
      else siftDownLoop hi first fuel child (data.Swap (first + root) (first + child))

/-- The function `siftDown(data, lo, hi, first)`. -/
def siftDown (data : Cards) (lo hi first : Nat) : Cards :=
  siftDownLoop hi first hi lo data

/-- The function `heapSort(data, a, b)`. -/
def heapSort (data : Cards) (a b : Nat) : Cards :=
  let first := a
  let lo := 0
  let hi := b - a
  let data := (List.range ((hi - 1) / 2 + 1)).reverse.foldl
    (fun d i => siftDown d i hi first) data
  (List.range hi).reverse.foldl
    (fun d i => siftDown (d.Swap first (first + i)) lo i first) data

/-- The loop `for i <= j && data.Less(i, a) { i++ }` of `partition`. -/
def partitionUp (data : Cards) (a j : Nat) : Nat → Nat → Nat
  | 0, i => i
  | fuel + 1, i =>
    if i ≤ j && data.Less i a then partitionUp data a j fuel (i + 1) else i

/-- The loop `for i <= j && !data.Less(j, a) { j-- }` of `partition`. -/
def partitionDown (data : Cards) (a i : Nat) : Nat → Nat
  | 0 => 0
  | j + 1 =>
    if i ≤ j + 1 && !data.Less (j + 1) a then partitionDown data a i j else j + 1

/-- The main `for` loop of `partition`; yields the final `j` and the data. -/
def partitionLoop (a : Nat) : Nat → Nat → Nat → Cards → Nat × Cards
  | 0, _, j, data => (j, data)
  | fuel + 1, i, j, data =>
    let i := partitionUp data a j (j + 1 - i) i
    let j := partitionDown data a i j
    if j < i then (j, data)
    else partitionLoop a fuel (i + 1) (j - 1) (data.Swap i j)

/-- The function `partition(data, a, b, pivot)`; yields the data, the new index
of the pivot and whether the range was already partitioned. -/
def partition (data : Cards) (a b pivot : Nat) : Cards × Nat × Bool :=
  let data := data.Swap a pivot
  let i := a + 1
  let j := b - 1
  let i := partitionUp data a j (j + 1 - i) i
  let j := partitionDown data a i j
  if j < i then (data.Swap j a, j, true)
  else
    let data := data.Swap i j
    let r := partitionLoop a (b - a) (i + 1) (j - 1) data
    (r.2.Swap r.1 a, r.1, false)

/-- The loop `for i <= j && !data.Less(a, i) { i++ }` of `partitionEqual`. -/
def partitionEqualUp (data : Cards) (a j : Nat) : Nat → Nat → Nat
  | 0, i => i
  | fuel + 1, i =>
    if i ≤ j && !data.Less a i then partitionEqualUp data a j fuel (i + 1) else i

/-- The loop `for i <= j && data.Less(a, j) { j-- }` of `partitionEqual`. -/
def partitionEqualDown (data : Cards) (a i : Nat) : Nat → Nat
  | 0 => 0
  | j + 1 =>
    if i ≤ j + 1 && data.Less a (j + 1) then partitionEqualDown data a i j else j + 1

/-- The `for` loop of `partitionEqual`; yields the final `i` and the data. -/
def partitionEqualLoop (a : Nat) : Nat → Nat → Nat → Cards → Nat × Cards
  | 0, i, _, data => (i, data)
  | fuel + 1, i, j, data =>
    let i := partitionEqualUp data a j (j + 1 - i) i
    let j := partitionEqualDown data a i j
    if j < i then (i, data)
    else partitionEqualLoop a fuel (i + 1) (j - 1) (data.Swap i j)

/-- The function `partitionEqual(data, a, b, pivot)`. -/
def partitionEqual (data : Cards) (a b pivot : Nat) : Cards × Nat :=
  let data := data.Swap a pivot
  let r := partitionEqualLoop a (b - a) (a + 1) (b - 1) data
  (r.2, r.1)

/-- The loop `for i < b && !data.Less(i, i-1) { i++ }` of
`partialInsertionSort`. -/
def partialScan (data : Cards) (b : Nat) : Nat → Nat → Nat
  | 0, i => i
  | fuel + 1, i =>
    if i < b && !data.Less i (i - 1) then partialScan data b fuel (i + 1) else i

/-- The loop `for j := i - 1; j >= 1; j--` of `partialInsertionSort`, which
shifts the smaller element to the left. -/
def partialShiftLeft : Nat → Cards → Cards
  | 0, data => data
  | j + 1, data =>
    if !data.Less (j + 1) j then data else partialShiftLeft j (data.Swap (j + 1) j)

/-- The loop `for j := i + 1; j < b; j++` of `partialInsertionSort`, which
shifts the greater element to the right. -/
def partialShiftRight (b : Nat) : Nat → Nat → Cards → Cards
  | 0, _, data => data
  | fuel + 1, j, data =>
    if j < b then
      if !data.Less j (j - 1) then data
      else partialShiftRight b fuel (j + 1) (data.Swap j (j - 1))
    else data

/-- The outer loop of `partialInsertionSort` with `steps` rounds left. -/
def partialInsertionLoop (a b : Nat) : Nat → Nat → Cards → Cards × Bool
  | 0, _, data => (data, false)
  | steps + 1, i, data =>
    let i := partialScan data b (b - i) i
    if i = b then (data, true)
    else if b - a < 50 then (data, false)
    else
      let data := data.Swap i (i - 1)
      let data := if 2 ≤ i - a then partialShiftLeft (i - 1) data else data
      let data := if 2 ≤ b - i then partialShiftRight b (b - (i + 1)) (i + 1) data else data
      partialInsertionLoop a b steps i data

/-- The function `partialInsertionSort(data, a, b)` (`maxSteps = 5`,
`shortestShifting = 50`). -/
def partialInsertionSort (data : Cards) (a b : Nat) : Cards × Bool :=
  partialInsertionLoop a b 5 (a + 1) data

/-- The method `Next` of `xorshift`, on a 64-bit state.  It only chooses which
positions `breakPatterns` swaps; no result below depends on the values. -/
def xorshiftNext (r : Nat) : Nat :=
  let r := r ^^^ ((r <<< 13) % 2 ^ 64)
  let r := r ^^^ (r >>> 7)
  r ^^^ ((r <<< 17) % 2 ^ 64)

/-- The function `nextPowerOfTwo(length)`. -/
def nextPowerOfTwo (length : Nat) : Nat := 2 ^ bitsLen length

/-- One round of the loop of `breakPatterns`. -/
def breakPatternsStep (a length idx : Nat) (st : Nat × Cards) (i : Nat) : Nat × Cards :=
  let random := xorshiftNext st.1
  let other := random &&& (nextPowerOfTwo length - 1)
  let other := if length ≤ other then other - length else other
  (random, st.2.Swap (idx - 1 + i) (a + other))

/-- The function `breakPatterns(data, a, b)`. -/
def breakPatterns (data : Cards) (a b : Nat) : Cards :=
  let length := b - a
  if 8 ≤ length then
    let idx := a + (length / 4) * 2 - 1
    ((List.range 3).foldl (breakPatternsStep a length idx) (length, data)).2
  else data

/-- The type `sortedHint`. -/
inductive sortedHint where
  | unknownHint
  | increasingHint
  | decreasingHint
deriving DecidableEq

/-- The function `order2(data, a, b, swaps)`; the counter is threaded. -/
def order2 (data : Cards) (a b swaps : Nat) : Nat × Nat × Nat :=
  if data.Less b a then (b, a, swaps + 1) else (a, b, swaps)

/-- The function `median(data, a, b, c, swaps)`. -/
def median (data : Cards) (a b c swaps : Nat) : Nat × Nat :=
  let r1 := order2 data a b swaps
  let r2 := order2 data r1.2.1 c r1.2.2
  let r3 := order2 data r1.1 r2.1 r2.2.2
  (r3.2.1, r3.2.2)

/-- The function `medianAdjacent(data, a, swaps)`. -/
def medianAdjacent (data : Cards) (a swaps : Nat) : Nat × Nat :=
  median data (a - 1) a (a + 1) swaps

/-- The function `choosePivot(data, a, b)` (`shortestNinther = 50`,
`maxSwaps = 12`). -/
def choosePivot (data : Cards) (a b : Nat) : Nat × sortedHint :=
  let l := b - a
  let i := a + l / 4 * 1
  let j := a + l / 4 * 2
  let k := a + l / 4 * 3
  let r :=
    if 8 ≤ l then
      if 50 ≤ l then
        let ri := medianAdjacent data i 0
        let rj := medianAdjacent data j ri.2
        let rk := medianAdjacent data k rj.2
        median data ri.1 rj.1 rk.1 rk.2
      else median data i j k 0
    else (j, 0)
  if r.2 = 0 then (r.1, sortedHint.increasingHint)
  else if r.2 = 12 then (r.1, sortedHint.decreasingHint)
  else (r.1, sortedHint.unknownHint)

/-- The loop of `reverseRange`. -/
def reverseLoop : Nat → Nat → Nat → Cards → Cards
  | 0, _, _, data => data
  | fuel + 1, i, j, data =>
    if i < j then reverseLoop fuel (i + 1) (j - 1) (data.Swap i j) else data

/-- The function `reverseRange(data, a, b)`. -/
def reverseRange (data : Cards) (a b : Nat) : Cards :=
  reverseLoop (b - a) a (b - 1) data

/-- The function `pdqsort(data, a, b, limit)` (`maxInsertion = 12`).  The two
flags are the loop variables `wasBalanced` and `wasPartitioned`; each round of
the loop and each recursive call works on a strictly shorter range, so a bound
of `b - a` rounds is never exhausted. -/
def pdqsortLoop : Nat → Cards → Nat → Nat → Nat → Bool → Bool → Cards
  | 0, data, a, b, _, _, _ => insertionSort data a b
  | fuel + 1, data, a, b, limit, wasBalanced, wasPartitioned =>
    let length := b - a
    if length ≤ 12 then insertionSort data a b
    else if limit = 0 then heapSort data a b
    else
      let data := if !wasBalanced then breakPatterns data a b else data
      let limit := if !wasBalanced then limit - 1 else limit
      let ph := choosePivot data a b
      let rev := decide (ph.2 = sortedHint.decreasingHint)
      let data := if rev then reverseRange data a b else data
      let pivot := if rev then (b - 1) - (ph.1 - a) else ph.1
      let hint := if rev then sortedHint.increasingHint else ph.2
      let pis :=
        if wasBalanced && wasPartitioned && decide (hint = sortedHint.increasingHint) then
          partialInsertionSort data a b
        else (data, false)
      if pis.2 then pis.1
      else
        let data := pis.1
        if 0 < a && !data.Less (a - 1) pivot then
          let pe := partitionEqual data a b pivot
          pdqsortLoop fuel pe.1 pe.2 b limit wasBalanced wasPartitioned
        else
          let pr := partition data a b pivot
          let data := pr.1
          let mid := pr.2.1
          let wasPartitioned := pr.2.2
          let leftLen := mid - a
          let rightLen := b - mid
          let balanceThreshold := length / 8
          if leftLen < rightLen then
            let wasBalanced := decide (balanceThreshold ≤ leftLen)
            let data := pdqsortLoop fuel data a mid limit true true
            pdqsortLoop fuel data (mid + 1) b limit wasBalanced wasPartitioned
          else
            let wasBalanced := decide (balanceThreshold ≤ rightLen)
            let data := pdqsortLoop fuel data (mid + 1) b limit true true
            pdqsortLoop fuel data a mid limit wasBalanced wasPartitioned

/-- The function `pdqsort(data, a, b, limit)`. -/
def pdqsort (data : Cards) (a b limit : Nat) : Cards :=
  pdqsortLoop (b - a) data a b limit true true

/-- The function `sort.Sort(data)`. -/
def sortSort (data : Cards) : Cards :=
  let n := data.Len
  if n ≤ 1 then data else pdqsort data 0 n (bitsLen n)

/-! ## The run of `main` over an explicit file system -/

/-- The variable `cardsURLs`: the configured locales and their URL templates. -/
def cardsURLs : List (String × String) :=
  [("en", "https://raw.githubusercontent.com/the-fab-cube/flesh-and-blood-cards/%s/json/english/card-flattened.json")]

/-- The call `fmt.Sprintf(format, arg)` for a format whose only verb is one
`%s`, on the characters of the format. -/
def sprintfChars (arg : List Char) : List Char → List Char
  | [] => []
  | [c] => [c]
  | c :: d :: rest =>
    if c = '%' ∧ d = 's' then arg ++ rest else c :: sprintfChars arg (d :: rest)

/-- The call `fmt.Sprintf(format, arg)` for a format whose only verb is one
`%s`. -/
def fmtSprintf (format arg : String) : String :=
  ⟨sprintfChars arg.data format.data⟩

/-- The function `sourceFile`. -/
def sourceFile (countryCode : String) : String :=
  "cards/" ++ countryCode ++ ".json"

/-- The files the process can see: the content stored under each path, and the
paths that cannot be created or opened for writing. -/
structure FileSystem where
  files : String → Option String
  locked : String → Bool

/-- The file system with `content` stored under `path`. -/
def FileSystem.put (fs : FileSystem) (path content : String) : FileSystem :=
  { fs with files := fun p => if p = path then some content else fs.files p }

/-- The call `os.ReadFile(name)`. -/
def osReadFile (fs : FileSystem) (name : String) : Except String String :=
  match fs.files name with
  | some content => .ok content
  | none => .error ("open " ++ name ++ ": no such file or directory")

/-- The call `os.WriteFile(name, data, 0644)`: the new file system and the
error, if any. -/
def osWriteFile (fs : FileSystem) (name data : String) : FileSystem × Option String :=
  if fs.locked name then (fs, some ("open " ++ name ++ ": permission denied"))
  else (fs.put name data, none)

/-- The call `os.Create(name)`: the file is created or truncated. -/
def osCreate (fs : FileSystem) (name : String) : FileSystem × Option String :=
  if fs.locked name then (fs, some ("open " ++ name ++ ": permission denied"))
  else (fs.put name "", none)

/-- What `http.Get` hands back: the status, the bytes the body delivers, and the
error that ends the body in place of the end of the stream, if any. -/
structure Response where
  StatusCode : Nat
  Status : String
  Body : String
  BodyErr : Option String

/-- The function `downloadFile(url, filepath)`: the new file system and the
returned error, if any. -/
def downloadFile (httpGet : String → Except String Response) (fs : FileSystem)
    (url filepath : String) : FileSystem × Option String :=
  match osCreate fs filepath with
  | (fs, some err) => (fs, some err)
  | (fs, none) =>
    match httpGet url with
    | .error err => (fs, some err)
    | .ok response =>
      if response.StatusCode ≠ 200 then (fs, some ("failed to download: " ++ response.Status))
      else (fs.put filepath response.Body, response.BodyErr)

/-- The first loop of `main` (`if update { for countryCode, cardsURL := range
cardsURLs ... }`) over the map entries in the order the loop visits them. -/
def updateLoop (httpGet : String → Except String Response) (branch : String) :
    List (String × String) → FileSystem → FileSystem × Option String
  | [], fs => (fs, none)
  | (countryCode, cardsURL) :: rest, fs =>
    let url := fmtSprintf cardsURL branch
    match downloadFile httpGet fs url (sourceFile countryCode) with
    | (fs, some err) => (fs, some err)
    | (fs, none) => updateLoop httpGet branch rest fs

/-- The inner loop of `main` for one decoded slice: sort it, then append the
row of every card to `content`. -/
def appendRows (content : String) (cards : Cards) : String :=
  (sortSort cards).foldl (fun content c => content ++ renderRow c) content

/-- The second loop of `main` (`for countryCode, _ := range cardsURLs`) over
the map keys in the order the loop visits them; `unmarshal` is
`json.Unmarshal` into a fresh `Cards`. -/
def generateLoop (unmarshal : String → Except String Cards) (fs : FileSystem) :
    List String → String → Except String String
  | [], content => .ok content
  | countryCode :: rest, content =>
    match osReadFile fs (sourceFile countryCode) with
    | .error err => .error err
    | .ok buf =>
      match unmarshal buf with
      | .error err => .error err
      | .ok cards => generateLoop unmarshal fs rest (appendRows content cards)

/-- How a run of `main` ends: the file system it leaves, the error handed to
`log.Fatal` if the run ends that way, and the calls of `os.WriteFile` it made. -/
structure Outcome where
  fs : FileSystem
  fatal : Option String
  written : List (String × String)

/-- The function `main`.  `update` and `branch` are the parsed flags;
`rangeUpdate` and `rangeGenerate` are the entries of `cardsURLs` in the order
in which the first and the second `range` loop visit them (Go leaves the
iteration order of a map unspecified). -/
def main (httpGet : String → Except String Response)
    (unmarshal : String → Except String Cards) (update : Bool) (branch : String)
    (rangeUpdate rangeGenerate : List (String × String)) (fs : FileSystem) : Outcome :=
  let up := if update then updateLoop httpGet branch rangeUpdate fs else (fs, none)
  match up with
  | (fs, some err) => { fs := fs, fatal := some err, written := [] }
  | (fs, none) =>
    match generateLoop unmarshal fs (rangeGenerate.map Prod.fst) "" with
    | .error err => { fs := fs, fatal := some err, written := [] }
    | .ok content =>
      let w := osWriteFile fs "cards.csv" content
      { fs := w.1, fatal := w.2, written := [("cards.csv", content)] }

/-! ## Notions used to state the properties -/

/-- The records of the per-locale slices in the order in which `main` emits
their rows: each slice sorted, the slices one after the other. -/
def emittedOrder (byLocale : List Cards) : Cards :=
  byLocale.flatMap sortSort

/-- Names in ascending order from first to last. -/
def NamesAscending (cs : Cards) : Prop :=
  cs.Pairwise (fun c d => stringLess d.Name c.Name = false)

/-- Reading and decoding the cache file of one locale, as one round of the
second loop of `main` does before it sorts. -/
def readAndDecode (unmarshal : String → Except String Cards) (fs : FileSystem)
    (countryCode : String) : Except String Cards :=
  match osReadFile fs (sourceFile countryCode) with
  | .error err => .error err
  | .ok buf => unmarshal buf

/-- The file system at the time the second loop of `main` starts. -/
def afterUpdate (httpGet : String → Except String Response) (update : Bool) (branch : String)
    (rangeUpdate : List (String × String)) (fs : FileSystem) : FileSystem :=
  (if update then updateLoop httpGet branch rangeUpdate fs else (fs, none)).1

/-- The error, if any, with which the first loop of `main` ends the run. -/
def updateError (httpGet : String → Except String Response) (update : Bool) (branch : String)
    (rangeUpdate : List (String × String)) (fs : FileSystem) : Option String :=
  (if update then updateLoop httpGet branch rangeUpdate fs else (fs, none)).2

/-- The part of a unique id that follows the card id and the first dot. -/
def printingSuffix (f e : String) : String :=
  if mapIndex edition e = "" then mapIndex foiling f
  else mapIndex foiling f ++ "." ++ mapIndex edition e

/-- The list `out` is the stable sort of `inp` by name: names ascend and the
records of each name come in the order they have in `inp`. -/
def IsStableSortByName (out inp : Cards) : Prop :=
  NamesAscending out ∧
    ∀ n : String, out.filter (fun c => decide (c.Name = n)) = inp.filter (fun c => decide (c.Name = n))

/-! ## Notions used in the correctness proof of `sort.Sort` -/

/-- The record at index `k` (the default record outside the slice). -/
def el (x : Cards) (k : Nat) : Card := x.getD k default

/-- The name at index `k`. -/
def nm (x : Cards) (k : Nat) : String := (x.getD k default).Name

/-- The slice `y` comes from `x` by swaps of positions within `[a, b)`. -/
inductive Swaps (a b : Nat) : Cards → Cards → Prop
  | refl (x : Cards) : Swaps a b x x
  | step (x y : Cards) (i j : Nat) (hai : a ≤ i) (hib : i < b) (haj : a ≤ j) (hjb : j < b)
      (h : Swaps a b (x.Swap i j) y) : Swaps a b x y

/-- The names at the positions of `[a, b)` ascend. -/
def SortedOn (x : Cards) (a b : Nat) : Prop :=
  ∀ i j, a ≤ i → i ≤ j → j < b → nm x i ≤ nm x j

/-- When `a > 0`, the record just left of the range is no greater than any
record of the range. -/
def LeftBound (x : Cards) (a b : Nat) : Prop :=
  0 < a → ∀ k, a ≤ k → k < b → nm x (a - 1) ≤ nm x k

/-- Node `i` of the heap laid out from position `first` with `hi` nodes is no
smaller than its children. -/
def HeapAt (x : Cards) (first hi i : Nat) : Prop :=
  (2 * i + 1 < hi → nm x (first + (2 * i + 1)) ≤ nm x (first + i)) ∧
  (2 * i + 2 < hi → nm x (first + (2 * i + 2)) ≤ nm x (first + i))

/-! ## Concrete inputs -/

/-- A record of the dataset with the given id, name and foiling, in the
unlimited edition. -/
def printing (id name foil : String) : Card :=
  { (default : Card) with ID := id, Name := name, Foiling := foil, Edition := "U" }

/-- Thirteen records; the first and the seventh are the two foilings of one
card and share its name. -/
def thirteenCards : Cards :=
  [printing "WTR090" "Sink Below" "S",
   printing "WTR001" "Anothos" "S",
   printing "WTR002" "Bravo" "S",
   printing "WTR003" "Crush Confidence" "S",
   printing "WTR004" "Debilitate" "S",
   printing "WTR005" "Emerging Power" "S",
   printing "WTR090" "Sink Below" "R",
   printing "WTR006" "Flic Flak" "S",
   printing "WTR007" "Glint the Quicksilver" "S",
   printing "WTR008" "Harmonized Kodachi" "S",
   printing "WTR009" "Ira, Crimson Haze" "S",
   printing "WTR010" "Jubeel" "S",
   printing "WTR011" "Katsu" "S"]

/-- Two records, the one with the greater name first. -/
def twoCards : Cards :=
  [printing "WTR090" "Sink Below" "S", printing "WTR001" "Anothos" "S"]

/-- The text of a cache file that describes the records of `twoCards`. -/
def twoCardsText : String :=
  "[\x7b\"id\":\"WTR090\",\"name\":\"Sink Below\",\"edition\":\"U\",\"foiling\":\"S\"\x7d," ++
    "\x7b\"id\":\"WTR001\",\"name\":\"Anothos\",\"edition\":\"U\",\"foiling\":\"S\"\x7d]"

/-- A file system whose only file is the cache file of the locale `en`, with
the text `twoCardsText`. -/
def enCache : FileSystem :=
  { files := fun p => if p = "cards/en.json" then some twoCardsText else none
    locked := fun _ => false }

/-- A decoder that yields `twoCards` for `twoCardsText`, as `json.Unmarshal`
does, and is used on that text only. -/
def decodeTwoCards (buf : String) : Except String Cards :=
  if buf = twoCardsText then .ok twoCards else .error "unexpected end of JSON input"

/-- A file system that holds an earlier catalog and, as the cache file of the
locale `en`, a JSON object instead of a JSON array. -/
def objectInCache : FileSystem :=
  { files := fun p =>
      if p = "cards.csv" then some "WTR001.NF.Unl,WTR001,Anothos\n"
      else if p = "cards/en.json" then some "\x7b\x7d"
      else none
    locked := fun _ => false }

/-- A decoder that rejects a document whose root is an object, as
`json.Unmarshal` into a slice does. -/
def rejectObject (buf : String) : Except String Cards :=
  if buf.data.head? = some '\x7b' then
    .error "json: cannot unmarshal object into Go value of type main.Cards"
  else .ok []

/-- A network that refuses every request. -/
def offline (url : String) : Except String Response :=
  .error ("Get " ++ url ++ ": no route to host")

theorem mem_iff_singleton_within {α : Type} (c : α) (l : List α) : [c] <:+: l ↔ c ∈ l := by
  constructor
  · rintro ⟨s, t, h⟩
    rw [← h]
    simp
  · intro h
    obtain ⟨s, t, h⟩ := List.append_of_mem h
    exact ⟨s, t, by simp [h]⟩

theorem stringsContains_comma (s : String) :
    stringsContains s "," = true ↔ ',' ∈ s.data := by
  unfold stringsContains
  rw [decide_eq_true_iff]
  exact mem_iff_singleton_within ',' s.data

theorem mapIndex_edition_other (k : String) (h : k ∉ ["A", "F", "U", "N"]) : mapIndex edition k = "" := by
  simp only [List.mem_cons, List.mem_singleton, not_or, List.not_mem_nil, or_false] at h
  obtain ⟨h1, h2, h3, h4⟩ := h
  have e1 : (k == "A") = false := by simpa using h1
  have e2 : (k == "F") = false := by simpa using h2
  have e3 : (k == "U") = false := by simpa using h3
  have e4 : (k == "N") = false := by simpa using h4
  simp [mapIndex, edition, List.lookup, e1, e2, e3, e4]

theorem mapIndex_foiling_other (k : String) (h : k ∉ ["S", "R", "C", "G"]) : mapIndex foiling k = "" := by
  simp only [List.mem_cons, List.mem_singleton, not_or, List.not_mem_nil, or_false] at h
  obtain ⟨h1, h2, h3, h4⟩ := h
  have e1 : (k == "S") = false := by simpa using h1
  have e2 : (k == "R") = false := by simpa using h2
  have e3 : (k == "C") = false := by simpa using h3
  have e4 : (k == "G") = false := by simpa using h4
  simp [mapIndex, foiling, List.lookup, e1, e2, e3, e4]

theorem uniqueID_data (c : Card) :
    (uniqueID c).data = c.ID.data ++ '.' :: (printingSuffix c.Foiling c.Edition).data := by
  unfold uniqueID printingSuffix
  by_cases h : mapIndex edition c.Edition = ""
  · simp [h]
  · simp [h]

theorem append_dot_cancel (l1 l2 r1 r2 : List Char) (h1 : '.' ∉ l1) (h2 : '.' ∉ l2)
    (h : l1 ++ '.' :: r1 = l2 ++ '.' :: r2) : l1 = l2 ∧ r1 = r2 := by
  induction l1 generalizing l2 with
  | nil =>
    cases l2 with
    | nil => simpa using h
    | cons y l2 =>
      simp only [List.nil_append, List.cons_append, List.cons.injEq] at h
      exact absurd (h.1 ▸ List.mem_cons_self _ _) h2
  | cons x l1 ih =>
    cases l2 with
    | nil =>
      simp only [List.nil_append, List.cons_append, List.cons.injEq] at h
      exact absurd (h.1 ▸ List.mem_cons_self _ _) h1
    | cons y l2 =>
      simp only [List.cons_append, List.cons.injEq] at h
      have := ih l2 (fun hm => h1 (List.mem_cons_of_mem _ hm))
        (fun hm => h2 (List.mem_cons_of_mem _ hm)) h.2
      exact ⟨by rw [h.1, this.1], this.2⟩

theorem printingSuffix_injective :
    ∀ f1 ∈ ["S", "R", "C", "G"], ∀ e1 ∈ ["A", "F", "U", "N"],
    ∀ f2 ∈ ["S", "R", "C", "G"], ∀ e2 ∈ ["A", "F", "U", "N"],
      printingSuffix f1 e1 = printingSuffix f2 e2 → f1 = f2 ∧ e1 = e2 := by
  decide

theorem foldl_append_eq (f : Card → String) (l : Cards) (init : String) :
    l.foldl (fun content c => content ++ f c) init = init ++ String.join (l.map f) := by
  have key : ∀ (xs : List String) (a : String),
      xs.foldl (fun r s => r ++ s) a = a ++ xs.foldl (fun r s => r ++ s) "" := by
    intro xs
    induction xs with
    | nil => intro a; simp
    | cons x xs ihx =>
      intro a
      simp only [List.foldl_cons]
      rw [ihx (a ++ x), ihx ("" ++ x)]
      simp [String.append_assoc]
  induction l generalizing init with
  | nil => simp [String.join]
  | cons c l ih =>
    rw [List.foldl_cons, ih, List.map_cons]
    have h : String.join (f c :: l.map f) = f c ++ String.join (l.map f) := by
      simp only [String.join, List.foldl_cons]
      rw [key]
      simp
    rw [h, String.append_assoc]

theorem join_append (xs ys : List String) :
    String.join (xs ++ ys) = String.join xs ++ String.join ys := by
  have key : ∀ (xs : List String) (a : String),
      xs.foldl (fun r s => r ++ s) a = a ++ xs.foldl (fun r s => r ++ s) "" := by
    intro xs
    induction xs with
    | nil => intro a; simp
    | cons x xs ihx =>
      intro a
      simp only [List.foldl_cons]
      rw [ihx (a ++ x), ihx ("" ++ x)]
      simp [String.append_assoc]
  simp only [String.join, List.foldl_append]
  rw [key ys]

theorem appendRows_eq (content : String) (cards : Cards) :
    appendRows content cards = content ++ String.join ((sortSort cards).map renderRow) := by
  unfold appendRows
  exact foldl_append_eq renderRow _ _

theorem generateLoop_ok (unmarshal : String → Except String Cards) (fs : FileSystem)
    (ccs : List String) (content out : String)
    (h : generateLoop unmarshal fs ccs content = .ok out) :
    ∃ byLocale : List Cards,
      List.Forall₂ (fun cc cards => readAndDecode unmarshal fs cc = .ok cards) ccs byLocale ∧
      out = content ++ String.join ((emittedOrder byLocale).map renderRow) := by
  induction ccs generalizing content with
  | nil =>
    simp only [generateLoop, Except.ok.injEq] at h
    exact ⟨[], List.Forall₂.nil, by simp [emittedOrder, String.join, h]⟩
  | cons cc rest ih =>
    unfold generateLoop at h
    cases hr : osReadFile fs (sourceFile cc) with
    | error e => simp [hr] at h
    | ok buf =>
      cases hu : unmarshal buf with
      | error e => simp [hr, hu] at h
      | ok cards =>
        simp only [hr, hu] at h
        obtain ⟨bl, hall, hout⟩ := ih _ h
        refine ⟨cards :: bl, List.Forall₂.cons ?_ hall, ?_⟩
        · simp [readAndDecode, hr, hu]
        · rw [hout, appendRows_eq]
          simp [emittedOrder, List.flatMap_cons, join_append, String.append_assoc]

theorem generateLoop_complete (unmarshal : String → Except String Cards) (fs : FileSystem)
    (ccs : List String) (byLocale : List Cards) (content : String)
    (h : List.Forall₂ (fun cc cards => readAndDecode unmarshal fs cc = .ok cards) ccs byLocale) :
    generateLoop unmarshal fs ccs content
      = .ok (content ++ String.join ((emittedOrder byLocale).map renderRow)) := by
  induction h generalizing content with
  | nil => simp [generateLoop, emittedOrder, String.join]
  | @cons cc cards ccs byLocale hd _ ih =>
    unfold generateLoop
    unfold readAndDecode at hd
    cases hr : osReadFile fs (sourceFile cc) with
    | error e => simp [hr] at hd
    | ok buf =>
      simp only [hr] at hd
      simp only [hd]
      rw [ih, appendRows_eq]
      simp [emittedOrder, List.flatMap_cons, join_append, String.append_assoc]

theorem generateLoop_error (unmarshal : String → Except String Cards) (fs : FileSystem)
    (ccs : List String) (content : String)
    (h : ∃ cc ∈ ccs, ∀ cards, readAndDecode unmarshal fs cc ≠ .ok cards) :
    ∃ err, generateLoop unmarshal fs ccs content = .error err := by
  induction ccs generalizing content with
  | nil => simp at h
  | cons cc rest ih =>
    unfold generateLoop
    cases hr : osReadFile fs (sourceFile cc) with
    | error e => exact ⟨e, by simp⟩
    | ok buf =>
      cases hu : unmarshal buf with
      | error e => exact ⟨e, by simp [hu]⟩
      | ok cards =>
        simp only [hu]
        apply ih
        obtain ⟨cc', hmem, hfail⟩ := h
        rcases List.mem_cons.1 hmem with rfl | hmem
        · exact absurd (by simp [readAndDecode, hr, hu]) (hfail cards)
        · exact ⟨cc', hmem, hfail⟩

theorem sourceFile_ne_output (cc : String) : "cards.csv" ≠ sourceFile cc := by
  intro h
  have := congrArg String.data h
  simp [sourceFile] at this

theorem downloadFile_output (httpGet : String → Except String Response) (fs : FileSystem)
    (url cc : String) :
    (downloadFile httpGet fs url (sourceFile cc)).1.files "cards.csv" = fs.files "cards.csv" := by
  have hne := sourceFile_ne_output cc
  unfold downloadFile osCreate
  by_cases hl : fs.locked (sourceFile cc) = true
  · simp [hl]
  · simp only [hl]
    cases hg : httpGet url with
    | error e => simp [FileSystem.put, hne]
    | ok r =>
      by_cases hs : r.StatusCode = 200
      · simp [hs, FileSystem.put, hne]
      · simp [hs, FileSystem.put, hne]

theorem updateLoop_output (httpGet : String → Except String Response) (branch : String)
    (entries : List (String × String)) (fs : FileSystem) :
    (updateLoop httpGet branch entries fs).1.files "cards.csv" = fs.files "cards.csv" := by
  induction entries generalizing fs with
  | nil => rfl
  | cons e rest ih =>
    obtain ⟨cc, tpl⟩ := e
    unfold updateLoop
    have hd := downloadFile_output httpGet fs (fmtSprintf tpl branch) cc
    cases hdl : downloadFile httpGet fs (fmtSprintf tpl branch) (sourceFile cc) with
    | mk fs1 err =>
      rw [hdl] at hd
      cases err with
      | some e => simpa only [hdl] using hd
      | none =>
        simp only [hdl]
        rw [ih fs1]
        exact hd

theorem afterUpdate_output (httpGet : String → Except String Response) (update : Bool)
    (branch : String) (entries : List (String × String)) (fs : FileSystem) :
    (afterUpdate httpGet update branch entries fs).files "cards.csv" = fs.files "cards.csv" := by
  unfold afterUpdate
  cases update with
  | false => rfl
  | true => exact updateLoop_output httpGet branch entries fs

theorem afterUpdate_of_noError (httpGet : String → Except String Response) (update : Bool)
    (branch : String) (rangeUpdate : List (String × String)) (fs : FileSystem)
    (h : updateError httpGet update branch rangeUpdate fs = none) :
    (if update = true then updateLoop httpGet branch rangeUpdate fs else (fs, none))
      = (afterUpdate httpGet update branch rangeUpdate fs, none) := by
  unfold updateError at h
  unfold afterUpdate
  generalize (if update = true then updateLoop httpGet branch rangeUpdate fs else (fs, none))
    = up at *
  obtain ⟨fs1, err⟩ := up
  simp only at h
  rw [h]

/-- A run whose downloads and decodings all succeed writes the rows of the
decoded slices, each slice sorted, the slices in the order visited. -/
theorem main_written (httpGet : String → Except String Response)
    (unmarshal : String → Except String Cards) (update : Bool) (branch : String)
    (rangeUpdate rangeGenerate : List (String × String)) (fs : FileSystem)
    (byLocale : List Cards)
    (hup : updateError httpGet update branch rangeUpdate fs = none)
    (hdec : List.Forall₂ (fun cc cards =>
      readAndDecode unmarshal (afterUpdate httpGet update branch rangeUpdate fs) cc = .ok cards)
      (rangeGenerate.map Prod.fst) byLocale) :
    (main httpGet unmarshal update branch rangeUpdate rangeGenerate fs).written
      = [("cards.csv", String.join ((emittedOrder byLocale).map renderRow))] := by
  unfold main
  rw [afterUpdate_of_noError httpGet update branch rangeUpdate fs hup]
  simp only
  rw [generateLoop_complete unmarshal _ _ byLocale "" hdec]
  simp

/-- Whatever a run writes is the rows of the slices it decoded. -/
theorem main_written_inv (httpGet : String → Except String Response)
    (unmarshal : String → Except String Cards) (update : Bool) (branch : String)
    (rangeUpdate rangeGenerate : List (String × String)) (fs : FileSystem)
    (path content : String)
    (hmem : (path, content) ∈
      (main httpGet unmarshal update branch rangeUpdate rangeGenerate fs).written) :
    ∃ byLocale : List Cards,
      List.Forall₂ (fun cc cards =>
        readAndDecode unmarshal (afterUpdate httpGet update branch rangeUpdate fs) cc = .ok cards)
        (rangeGenerate.map Prod.fst) byLocale ∧
      path = "cards.csv" ∧
      content = String.join ((emittedOrder byLocale).map renderRow) := by
  unfold afterUpdate
  unfold main at hmem
  cases hup : (if update = true then updateLoop httpGet branch rangeUpdate fs else (fs, none)) with
  | mk fs1 err =>
    simp only [hup] at hmem
    cases err with
    | some e => simp at hmem
    | none =>
      simp only at hmem
      cases hg : generateLoop unmarshal fs1 (rangeGenerate.map Prod.fst) "" with
      | error e => simp [hg] at hmem
      | ok out =>
        simp only [hg, List.mem_singleton, Prod.mk.injEq] at hmem
        obtain ⟨bl, hall, hout⟩ := generateLoop_ok _ _ _ _ _ hg
        exact ⟨bl, hall, hmem.1, by rw [hmem.2, hout]; simp⟩

/-! ## Elements, names and swaps -/

theorem stringLess_iff (a b : String) : stringLess a b = true ↔ a < b := by
  unfold stringLess
  rw [decide_eq_true_iff, String.lt_iff_toList_lt]
  rfl

theorem stringLess_false_iff (a b : String) : stringLess a b = false ↔ b ≤ a := by
  rw [← Bool.not_eq_true, stringLess_iff, not_lt]

theorem Less_iff (x : Cards) (i j : Nat) : x.Less i j = true ↔ nm x i < nm x j :=
  stringLess_iff _ _

theorem Less_false_iff (x : Cards) (i j : Nat) : x.Less i j = false ↔ nm x j ≤ nm x i :=
  stringLess_false_iff _ _

@[simp] theorem length_Swap (x : Cards) (i j : Nat) : (x.Swap i j).length = x.length := by
  simp [Cards.Swap]

theorem el_Swap (x : Cards) (i j k : Nat) (hi : i < x.length) (hj : j < x.length) :
    el (x.Swap i j) k = if k = j then el x i else if k = i then el x j else el x k := by
  simp only [el, Cards.Swap, List.getD_eq_getElem?_getD, List.getElem?_set, List.length_set]
  by_cases h1 : j = k
  · subst h1; simp [hj]
  · by_cases h2 : i = k
    · subst h2; simp [h1, hi, Ne.symm h1]
    · simp [h1, h2, Ne.symm h1, Ne.symm h2]

theorem nm_Swap (x : Cards) (i j k : Nat) (hi : i < x.length) (hj : j < x.length) :
    nm (x.Swap i j) k = if k = j then nm x i else if k = i then nm x j else nm x k := by
  have h := congrArg Card.Name (el_Swap x i j k hi hj)
  simp only [el] at h
  simp only [nm, h]
  split_ifs <;> rfl

theorem nm_Swap_left (x : Cards) (i j : Nat) (hi : i < x.length) (hj : j < x.length) :
    nm (x.Swap i j) i = nm x j := by
  rw [nm_Swap x i j i hi hj]
  by_cases h : i = j
  · simp [h]
  · simp [h]

theorem nm_Swap_right (x : Cards) (i j : Nat) (hi : i < x.length) (hj : j < x.length) :
    nm (x.Swap i j) j = nm x i := by
  rw [nm_Swap x i j j hi hj]
  simp

theorem nm_Swap_other (x : Cards) (i j k : Nat) (hi : i < x.length) (hj : j < x.length)
    (hki : k ≠ i) (hkj : k ≠ j) : nm (x.Swap i j) k = nm x k := by
  rw [nm_Swap x i j k hi hj]
  simp [hki, hkj]

theorem set_getD_perm (x : Cards) (j : Nat) (c : Card) (hj : j < x.length) :
    (x.getD j default :: x.set j c).Perm (c :: x) := by
  induction x generalizing j with
  | nil => simp at hj
  | cons d x ih =>
    cases j with
    | zero => simpa using List.Perm.swap c d x
    | succ j =>
      have hj' : j < x.length := by simpa using hj
      simp only [List.getD_cons_succ, List.set_cons_succ]
      exact ((List.Perm.swap d _ _).trans ((ih j hj').cons d)).trans (List.Perm.swap c d x)

theorem Swap_perm (x : Cards) (i j : Nat) (hi : i < x.length) (hj : j < x.length) :
    (x.Swap i j).Perm x := by
  induction x generalizing i j with
  | nil => simp at hi
  | cons c x ih =>
    cases i with
    | zero =>
      cases j with
      | zero => simp [Cards.Swap]
      | succ j =>
        have hj' : j < x.length := by simpa using hj
        simpa [Cards.Swap] using set_getD_perm x j c hj'
    | succ i =>
      have hi' : i < x.length := by simpa using hi
      cases j with
      | zero =>
        simpa [Cards.Swap] using set_getD_perm x i c hi'
      | succ j =>
        have hj' : j < x.length := by simpa using hj
        simpa [Cards.Swap] using ih i j hi' hj'

/-! ## Chains of swaps inside an index range -/

theorem Swaps.trans {a b : Nat} {x y z : Cards} (h1 : Swaps a b x y) (h2 : Swaps a b y z) :
    Swaps a b x z := by
  induction h1 with
  | refl => exact h2
  | step x y i j hai hib haj hjb _ ih => exact Swaps.step x z i j hai hib haj hjb (ih h2)

theorem Swaps.mono {a b a' b' : Nat} {x y : Cards} (h : Swaps a b x y) (ha : a' ≤ a)
    (hb : b ≤ b') : Swaps a' b' x y := by
  induction h with
  | refl => exact Swaps.refl _
  | step x y i j hai hib haj hjb _ ih =>
    exact Swaps.step x y i j (by omega) (by omega) (by omega) (by omega) ih

theorem Swaps.one {a b : Nat} (x : Cards) (i j : Nat) (hai : a ≤ i) (hib : i < b)
    (haj : a ≤ j) (hjb : j < b) : Swaps a b x (x.Swap i j) :=
  Swaps.step x _ i j hai hib haj hjb (Swaps.refl _)

theorem Swaps.length_eq {a b : Nat} {x y : Cards} (h : Swaps a b x y) : y.length = x.length := by
  induction h with
  | refl => rfl
  | step x y i j _ _ _ _ _ ih => simpa using ih

theorem Swaps.perm {a b : Nat} {x y : Cards} (h : Swaps a b x y) (hb : b ≤ x.length) :
    y.Perm x := by
  induction h with
  | refl => exact List.Perm.refl _
  | step x y i j hai hib haj hjb _ ih =>
    exact (ih (by simpa using hb)).trans (Swap_perm x i j (by omega) (by omega))

/-- Positions outside the range keep their record. -/
theorem Swaps.el_outside {a b : Nat} {x y : Cards} (h : Swaps a b x y) (hb : b ≤ x.length)
    (k : Nat) (hk : k < a ∨ b ≤ k) : el y k = el x k := by
  induction h with
  | refl => rfl
  | step x y i j hai hib haj hjb _ ih =>
    rw [ih (by simpa using hb), el_Swap x i j k (by omega) (by omega)]
    have h1 : k ≠ j := by omega
    have h2 : k ≠ i := by omega
    simp [h1, h2]

theorem Swaps.nm_outside {a b : Nat} {x y : Cards} (h : Swaps a b x y) (hb : b ≤ x.length)
    (k : Nat) (hk : k < a ∨ b ≤ k) : nm y k = nm x k :=
  congrArg Card.Name (h.el_outside hb k hk)

/-- A property of all records of the range survives the swaps. -/
theorem Swaps.forall_range {a b : Nat} {x y : Cards} (h : Swaps a b x y) (hb : b ≤ x.length)
    (P : Card → Prop) (hP : ∀ k, a ≤ k → k < b → P (el x k)) :
    ∀ k, a ≤ k → k < b → P (el y k) := by
  induction h with
  | refl => exact hP
  | step x y i j hai hib haj hjb _ ih =>
    apply ih (by simpa using hb)
    intro k hak hkb
    rw [el_Swap x i j k (by omega) (by omega)]
    split_ifs
    · exact hP i hai hib
    · exact hP j haj hjb
    · exact hP k hak hkb

theorem Swaps.forall_nm {a b : Nat} {x y : Cards} (h : Swaps a b x y) (hb : b ≤ x.length)
    (P : String → Prop) (hP : ∀ k, a ≤ k → k < b → P (nm x k)) :
    ∀ k, a ≤ k → k < b → P (nm y k) :=
  h.forall_range hb (fun c => P c.Name) hP

/-! ## Sorted ranges -/

theorem SortedOn.of_adjacent (x : Cards) (a b : Nat)
    (h : ∀ i, a ≤ i → i + 1 < b → nm x i ≤ nm x (i + 1)) : SortedOn x a b := by
  intro i j hai hij hjb
  induction j with
  | zero =>
    have : i = 0 := by omega
    subst this; exact le_refl _
  | succ j ih =>
    rcases Nat.eq_or_lt_of_le hij with heq | hlt
    · subst heq; exact le_refl _
    · exact le_trans (ih (by omega) (by omega)) (h j (by omega) hjb)

theorem SortedOn.of_len_le_one (x : Cards) (a b : Nat) (h : b ≤ a + 1) : SortedOn x a b := by
  intro i j hai hij hjb
  have : i = j := by omega
  subst this; exact le_refl _

theorem Swaps.leftBound {a b : Nat} {x y : Cards} (h : Swaps a b x y) (hb : b ≤ x.length)
    (hL : LeftBound x a b) : LeftBound y a b := by
  intro ha
  rw [h.nm_outside hb (a - 1) (by omega)]
  exact h.forall_nm hb (fun s => nm x (a - 1) ≤ s) (hL ha)

/-! ## `insertionSort` -/

theorem insertionSortInner_spec (a i : Nat) :
    ∀ (j : Nat) (x : Cards), a ≤ j → j ≤ i → i < x.length →
      SortedOn x a j → SortedOn x j (i + 1) →
      (∀ k l, a ≤ k → k < j → j < l → l ≤ i → nm x k ≤ nm x l) →
      Swaps a (i + 1) x (insertionSortInner a j x) ∧
        SortedOn (insertionSortInner a j x) a (i + 1) := by
  intro j
  induction j with
  | zero =>
    intro x ha _ _ _ h2 _
    have : a = 0 := by omega
    subst this
    exact ⟨Swaps.refl _, h2⟩
  | succ j ih =>
    intro x ha hji hi h1 h2 h3
    unfold insertionSortInner
    by_cases hc : (decide (a < j + 1) && x.Less (j + 1) j) = true
    · rw [if_pos hc]
      simp only [Bool.and_eq_true, decide_eq_true_eq] at hc
      obtain ⟨haj, hless⟩ := hc
      rw [Less_iff] at hless
      have hj1 : j + 1 < x.length := by omega
      have hj0 : j < x.length := by omega
      have hrec := ih (x.Swap (j + 1) j) (by omega) (by omega) (by simpa using hi) ?_ ?_ ?_
      · exact ⟨Swaps.step x _ (j + 1) j (by omega) (by omega) (by omega) (by omega) hrec.1, hrec.2⟩
      · intro p q hp hpq hq
        rw [nm_Swap_other x _ _ p hj1 hj0 (by omega) (by omega),
          nm_Swap_other x _ _ q hj1 hj0 (by omega) (by omega)]
        exact h1 p q hp hpq (by omega)
      · apply SortedOn.of_adjacent
        intro p hp hp1
        rcases Nat.lt_trichotomy p j with h | h | h
        · omega
        · subst h
          rw [nm_Swap_right x _ _ hj1 hj0, nm_Swap_left x _ _ hj1 hj0]
          exact le_of_lt hless
        · rcases Nat.eq_or_lt_of_le (Nat.succ_le_of_lt h) with h' | h'
          · have hpe : p = j + 1 := h'.symm
            subst hpe
            rw [nm_Swap_left x _ _ hj1 hj0,
              nm_Swap_other x _ _ (j + 1 + 1) hj1 hj0 (by omega) (by omega)]
            exact h3 j (j + 2) (by omega) (by omega) (by omega) (by omega)
          · rw [nm_Swap_other x _ _ p hj1 hj0 (by omega) (by omega),
              nm_Swap_other x _ _ (p + 1) hj1 hj0 (by omega) (by omega)]
            exact h2 p (p + 1) (by omega) (by omega) hp1
      · intro k l hk hkj hjl hli
        rw [nm_Swap_other x _ _ k hj1 hj0 (by omega) (by omega)]
        by_cases hl : l = j + 1
        · subst hl
          rw [nm_Swap_left x _ _ hj1 hj0]
          exact h1 k j hk (by omega) (by omega)
        · rw [nm_Swap_other x _ _ l hj1 hj0 hl (by omega)]
          exact h3 k l hk (by omega) (by omega) hli
    · rw [if_neg hc]
      refine ⟨Swaps.refl _, ?_⟩
      simp only [Bool.and_eq_true, decide_eq_true_eq, not_and, Bool.not_eq_true] at hc
      rcases Nat.eq_or_lt_of_le ha with heq | hlt
      · rw [heq]; exact h2
      · have hle := (Less_false_iff x (j + 1) j).1 (hc hlt)
        apply SortedOn.of_adjacent
        intro p hp hp1
        rcases Nat.lt_trichotomy p j with h | h | h
        · exact h1 p (p + 1) hp (by omega) (by omega)
        · subst h; exact hle
        · exact h2 p (p + 1) (by omega) (by omega) hp1

theorem insertionSort_fold_spec (a b : Nat) :
    ∀ (n i : Nat) (x : Cards), a + 1 ≤ i → i + n = max b (a + 1) → b ≤ x.length →
      SortedOn x a i →
      Swaps a b x ((List.range' i n).foldl (fun d i => insertionSortInner a i d) x) ∧
        SortedOn ((List.range' i n).foldl (fun d i => insertionSortInner a i d) x) a b := by
  intro n
  induction n with
  | zero =>
    intro i x hi hn hb hs
    simp only [List.range', List.foldl_nil]
    refine ⟨Swaps.refl _, ?_⟩
    intro p q hp hpq hq
    exact hs p q hp hpq (by omega)
  | succ n ih =>
    intro i x hi hn hb hs
    simp only [List.range', List.foldl_cons]
    have hib : i < b := by omega
    have h1 := insertionSortInner_spec a i i x (by omega) (le_refl _) (by omega) hs
      (SortedOn.of_len_le_one x i (i + 1) (le_refl _)) (by intro k l _ _ h1 h2; omega)
    have h2 := ih (i + 1) (insertionSortInner a i x) (by omega) (by omega)
      (by rw [h1.1.length_eq]; exact hb) h1.2
    exact ⟨(h1.1.mono (le_refl _) (by omega)).trans h2.1, h2.2⟩

theorem insertionSort_spec (x : Cards) (a b : Nat) (hb : b ≤ x.length) :
    Swaps a b x (insertionSort x a b) ∧ SortedOn (insertionSort x a b) a b := by
  unfold insertionSort
  apply insertionSort_fold_spec a b (b - (a + 1)) (a + 1) x (le_refl _) (by omega) hb
  exact SortedOn.of_len_le_one x a (a + 1) (le_refl _)

/-! ## `partition` -/

theorem partitionUp_spec (x : Cards) (a j : Nat) :
    ∀ (fuel i : Nat), i ≤ j + 1 → j + 1 - i ≤ fuel →
      i ≤ partitionUp x a j fuel i ∧ partitionUp x a j fuel i ≤ j + 1 ∧
      (∀ k, i ≤ k → k < partitionUp x a j fuel i → nm x k < nm x a) ∧
      (partitionUp x a j fuel i ≤ j → nm x a ≤ nm x (partitionUp x a j fuel i)) := by
  intro fuel
  induction fuel with
  | zero =>
    intro i h1 h2
    simp only [partitionUp]
    exact ⟨le_refl _, h1, fun k hk hk' => by omega, fun h => by omega⟩
  | succ fuel ih =>
    intro i h1 h2
    unfold partitionUp
    by_cases hc : (decide (i ≤ j) && x.Less i a) = true
    · rw [if_pos hc]
      simp only [Bool.and_eq_true, decide_eq_true_eq] at hc
      obtain ⟨hij, hless⟩ := hc
      rw [Less_iff] at hless
      obtain ⟨r1, r2, r3, r4⟩ := ih (i + 1) (by omega) (by omega)
      refine ⟨by omega, r2, ?_, r4⟩
      intro k hk hk'
      rcases Nat.eq_or_lt_of_le hk with h | h
      · rw [← h]; exact hless
      · exact r3 k (by omega) hk'
    · rw [if_neg hc]
      simp only [Bool.and_eq_true, decide_eq_true_eq, not_and, Bool.not_eq_true] at hc
      exact ⟨le_refl _, h1, fun k hk hk' => by omega, fun h => (Less_false_iff _ _ _).1 (hc h)⟩

theorem partitionDown_spec (x : Cards) (a i : Nat) (hi : 1 ≤ i) :
    ∀ (j : Nat), i ≤ j + 1 →
      partitionDown x a i j ≤ j ∧ i ≤ partitionDown x a i j + 1 ∧
      (∀ k, partitionDown x a i j < k → k ≤ j → nm x a ≤ nm x k) ∧
      (i ≤ partitionDown x a i j → nm x (partitionDown x a i j) < nm x a) := by
  intro j
  induction j with
  | zero =>
    intro h
    simp only [partitionDown]
    exact ⟨le_refl _, h, fun k hk hk' => by omega, fun h => by omega⟩
  | succ j ih =>
    intro h
    unfold partitionDown
    by_cases hc : (decide (i ≤ j + 1) && !x.Less (j + 1) a) = true
    · rw [if_pos hc]
      simp only [Bool.and_eq_true, decide_eq_true_eq, Bool.not_eq_true'] at hc
      obtain ⟨hij, hless⟩ := hc
      rw [Less_false_iff] at hless
      obtain ⟨r1, r2, r3, r4⟩ := ih hij
      refine ⟨by omega, r2, ?_, r4⟩
      intro k hk hk'
      rcases Nat.eq_or_lt_of_le hk' with h | h
      · rw [h]; exact hless
      · exact r3 k hk (by omega)
    · rw [if_neg hc]
      simp only [Bool.and_eq_true, decide_eq_true_eq, not_and, Bool.not_eq_true,
        Bool.not_eq_true', Bool.not_eq_false] at hc
      exact ⟨le_refl _, by omega, fun k hk hk' => by omega, fun h => (Less_iff _ _ _).1 (hc h)⟩

theorem partitionLoop_spec (a b : Nat) :
    ∀ (fuel i j : Nat) (x : Cards), a + 1 ≤ i → i ≤ j + 1 → j < b → b ≤ x.length →
      j + 1 - i ≤ fuel →
      (∀ k, a + 1 ≤ k → k < i → nm x k < nm x a) →
      (∀ k, j < k → k < b → nm x a ≤ nm x k) →
      Swaps (a + 1) b x (partitionLoop a fuel i j x).2 ∧
      a ≤ (partitionLoop a fuel i j x).1 ∧ (partitionLoop a fuel i j x).1 < b ∧
      (∀ k, a + 1 ≤ k → k ≤ (partitionLoop a fuel i j x).1 →
        nm (partitionLoop a fuel i j x).2 k < nm x a) ∧
      (∀ k, (partitionLoop a fuel i j x).1 < k → k < b →
        nm x a ≤ nm (partitionLoop a fuel i j x).2 k) := by
  intro fuel
  induction fuel with
  | zero =>
    intro i j x h1 h2 h3 h4 h5 hlo hhi
    simp only [partitionLoop]
    exact ⟨Swaps.refl _, by omega, h3, fun k hk hk' => hlo k hk (by omega), hhi⟩
  | succ fuel ih =>
    intro i j x h1 h2 h3 h4 h5 hlo hhi
    obtain ⟨u1, u2, u3, u4⟩ := partitionUp_spec x a j (j + 1 - i) i h2 (le_refl _)
    obtain ⟨d1, d2, d3, d4⟩ := partitionDown_spec x a (partitionUp x a j (j + 1 - i) i)
      (by omega) j u2
    unfold partitionLoop
    simp only []
    generalize partitionUp x a j (j + 1 - i) i = i' at *
    generalize partitionDown x a i' j = j' at *
    by_cases hc : j' < i'
    · rw [if_pos hc]
      refine ⟨Swaps.refl _, by omega, by omega, ?_, ?_⟩
      · intro k hk hk'
        by_cases hki : k < i
        · exact hlo k hk hki
        · exact u3 k (by omega) (by omega)
      · intro k hk hk'
        by_cases hkj : k ≤ j
        · exact d3 k hk hkj
        · exact hhi k (by omega) hk'
    · rw [if_neg hc]
      have hle : i' ≤ j' := by omega
      have hi'p := u4 (by omega)
      have hj'p := d4 hle
      have hne : i' ≠ j' := by
        intro h
        rw [h] at hi'p
        exact absurd hj'p (not_lt.2 hi'p)
      have hil : i' < x.length := by omega
      have hjl : j' < x.length := by omega
      have hna : nm (x.Swap i' j') a = nm x a :=
        nm_Swap_other x i' j' a hil hjl (by omega) (by omega)
      have hlo' : ∀ k, a + 1 ≤ k → k < i' + 1 → nm (x.Swap i' j') k < nm (x.Swap i' j') a := by
        intro k hk hk'
        rw [hna]
        by_cases hki' : k = i'
        · rw [hki', nm_Swap_left x i' j' hil hjl]; exact hj'p
        · rw [nm_Swap_other x i' j' k hil hjl hki' (by omega)]
          by_cases hki : k < i
          · exact hlo k hk hki
          · exact u3 k (by omega) (by omega)
      have hhi' : ∀ k, j' - 1 < k → k < b → nm (x.Swap i' j') a ≤ nm (x.Swap i' j') k := by
        intro k hk hk'
        rw [hna]
        by_cases hkj' : k = j'
        · rw [hkj', nm_Swap_right x i' j' hil hjl]; exact hi'p
        · rw [nm_Swap_other x i' j' k hil hjl (by omega) hkj']
          by_cases hkj : k ≤ j
          · exact d3 k (by omega) hkj
          · exact hhi k (by omega) hk'
      obtain ⟨r1, r2, r3, r4, r5⟩ := ih (i' + 1) (j' - 1) (x.Swap i' j') (by omega) (by omega)
        (by omega) (by simpa using h4) (by omega) hlo' hhi'
      rw [hna] at r4 r5
      exact ⟨Swaps.step x _ i' j' (by omega) (by omega) (by omega) (by omega) r1, r2, r3, r4, r5⟩

theorem partition_final (d : Cards) (a b j : Nat) (haj : a ≤ j) (hjb : j < b)
    (hb : b ≤ d.length)
    (hlo : ∀ k, a + 1 ≤ k → k ≤ j → nm d k < nm d a)
    (hhi : ∀ k, j < k → k < b → nm d a ≤ nm d k) :
    (∀ k, a ≤ k → k < j → nm (d.Swap j a) k < nm (d.Swap j a) j) ∧
    (∀ k, j < k → k < b → nm (d.Swap j a) j ≤ nm (d.Swap j a) k) := by
  have hjl : j < d.length := by omega
  have hal : a < d.length := by omega
  have hj : nm (d.Swap j a) j = nm d a := nm_Swap_left d j a hjl hal
  constructor
  · intro k hk hk'
    rw [hj]
    by_cases hka : k = a
    · rw [hka, nm_Swap_right d j a hjl hal]
      exact hlo j (by omega) (le_refl _)
    · rw [nm_Swap_other d j a k hjl hal (by omega) hka]
      exact hlo k (by omega) (by omega)
  · intro k hk hk'
    rw [hj, nm_Swap_other d j a k hjl hal (by omega) (by omega)]
    exact hhi k hk hk'

theorem partition_spec (x : Cards) (a b pivot : Nat) (hap : a ≤ pivot) (hpb : pivot < b)
    (hb : b ≤ x.length) :
    Swaps a b x (partition x a b pivot).1 ∧
    a ≤ (partition x a b pivot).2.1 ∧ (partition x a b pivot).2.1 < b ∧
    (∀ k, a ≤ k → k < (partition x a b pivot).2.1 →
      nm (partition x a b pivot).1 k < nm (partition x a b pivot).1 (partition x a b pivot).2.1) ∧
    (∀ k, (partition x a b pivot).2.1 < k → k < b →
      nm (partition x a b pivot).1 (partition x a b pivot).2.1 ≤ nm (partition x a b pivot).1 k) := by
  have hs0 : Swaps a b x (x.Swap a pivot) := Swaps.one x a pivot (le_refl _) (by omega) hap hpb
  have hl0 : b ≤ (x.Swap a pivot).length := by simpa using hb
  obtain ⟨u1, u2, u3, u4⟩ := partitionUp_spec (x.Swap a pivot) a (b - 1) (b - 1 + 1 - (a + 1))
    (a + 1) (by omega) (le_refl _)
  obtain ⟨d1, d2, d3, d4⟩ := partitionDown_spec (x.Swap a pivot) a
    (partitionUp (x.Swap a pivot) a (b - 1) (b - 1 + 1 - (a + 1)) (a + 1)) (by omega) (b - 1) u2
  unfold partition
  simp only []
  generalize partitionUp (x.Swap a pivot) a (b - 1) (b - 1 + 1 - (a + 1)) (a + 1) = i at *
  generalize partitionDown (x.Swap a pivot) a i (b - 1) = j at *
  generalize x.Swap a pivot = d at *
  by_cases hc : j < i
  · rw [if_pos hc]
    simp only []
    have hfin := partition_final d a b j (by omega) (by omega) hl0
      (fun k hk hk' => u3 k hk (by omega)) (fun k hk hk' => d3 k hk (by omega))
    exact ⟨hs0.trans (Swaps.one d j a (by omega) (by omega) (le_refl _) (by omega)),
      by omega, by omega, hfin.1, hfin.2⟩
  · rw [if_neg hc]
    simp only []
    have hle : i ≤ j := by omega
    have hip := u4 (by omega)
    have hjp := d4 hle
    have hne : i ≠ j := by
      intro h
      rw [h] at hip
      exact absurd hjp (not_lt.2 hip)
    have hil : i < d.length := by omega
    have hjl : j < d.length := by omega
    have hna : nm (d.Swap i j) a = nm d a :=
      nm_Swap_other d i j a hil hjl (by omega) (by omega)
    have hlo' : ∀ k, a + 1 ≤ k → k < i + 1 → nm (d.Swap i j) k < nm (d.Swap i j) a := by
      intro k hk hk'
      rw [hna]
      by_cases hki : k = i
      · rw [hki, nm_Swap_left d i j hil hjl]; exact hjp
      · rw [nm_Swap_other d i j k hil hjl hki (by omega)]
        exact u3 k hk (by omega)
    have hhi' : ∀ k, j - 1 < k → k < b → nm (d.Swap i j) a ≤ nm (d.Swap i j) k := by
      intro k hk hk'
      rw [hna]
      by_cases hkj : k = j
      · rw [hkj, nm_Swap_right d i j hil hjl]; exact hip
      · rw [nm_Swap_other d i j k hil hjl (by omega) hkj]
        exact d3 k (by omega) (by omega)
    obtain ⟨r1, r2, r3, r4, r5⟩ := partitionLoop_spec a b (b - a) (i + 1) (j - 1) (d.Swap i j)
      (by omega) (by omega) (by omega) (by simpa using hl0) (by omega) hlo' hhi'
    generalize partitionLoop a (b - a) (i + 1) (j - 1) (d.Swap i j) = r at *
    have hsw : Swaps a b d r.2 :=
      (Swaps.one d i j (by omega) (by omega) (by omega) (by omega)).trans
        (r1.mono (by omega) (le_refl _))
    have hrl : b ≤ r.2.length := by rw [hsw.length_eq]; exact hl0
    have hra : nm r.2 a = nm (d.Swap i j) a :=
      r1.nm_outside (by simpa using hl0) a (by omega)
    rw [← hra] at r4 r5
    have hfin := partition_final r.2 a b r.1 r2 r3 hrl r4 r5
    exact ⟨(hs0.trans hsw).trans (Swaps.one r.2 r.1 a (by omega) (by omega) (le_refl _) (by omega)),
      r2, r3, hfin.1, hfin.2⟩

/-! ## `partitionEqual` -/

theorem partitionEqualUp_spec (x : Cards) (a j : Nat) :
    ∀ (fuel i : Nat), i ≤ j + 1 → j + 1 - i ≤ fuel →
      i ≤ partitionEqualUp x a j fuel i ∧ partitionEqualUp x a j fuel i ≤ j + 1 ∧
      (∀ k, i ≤ k → k < partitionEqualUp x a j fuel i → nm x k ≤ nm x a) ∧
      (partitionEqualUp x a j fuel i ≤ j → nm x a < nm x (partitionEqualUp x a j fuel i)) := by
  intro fuel
  induction fuel with
  | zero =>
    intro i h1 h2
    simp only [partitionEqualUp]
    exact ⟨le_refl _, h1, fun k hk hk' => by omega, fun h => by omega⟩
  | succ fuel ih =>
    intro i h1 h2
    unfold partitionEqualUp
    by_cases hc : (decide (i ≤ j) && !x.Less a i) = true
    · rw [if_pos hc]
      simp only [Bool.and_eq_true, decide_eq_true_eq, Bool.not_eq_true'] at hc
      obtain ⟨hij, hless⟩ := hc
      rw [Less_false_iff] at hless
      obtain ⟨r1, r2, r3, r4⟩ := ih (i + 1) (by omega) (by omega)
      refine ⟨by omega, r2, ?_, r4⟩
      intro k hk hk'
      rcases Nat.eq_or_lt_of_le hk with h | h
      · rw [← h]; exact hless
      · exact r3 k (by omega) hk'
    · rw [if_neg hc]
      simp only [Bool.and_eq_true, decide_eq_true_eq, not_and, Bool.not_eq_true,
        Bool.not_eq_true', Bool.not_eq_false] at hc
      exact ⟨le_refl _, h1, fun k hk hk' => by omega, fun h => (Less_iff _ _ _).1 (hc h)⟩

theorem partitionEqualDown_spec (x : Cards) (a i : Nat) (hi : 1 ≤ i) :
    ∀ (j : Nat), i ≤ j + 1 →
      partitionEqualDown x a i j ≤ j ∧ i ≤ partitionEqualDown x a i j + 1 ∧
      (∀ k, partitionEqualDown x a i j < k → k ≤ j → nm x a < nm x k) ∧
      (i ≤ partitionEqualDown x a i j → nm x (partitionEqualDown x a i j) ≤ nm x a) := by
  intro j
  induction j with
  | zero =>
    intro h
    simp only [partitionEqualDown]
    exact ⟨le_refl _, h, fun k hk hk' => by omega, fun h => by omega⟩
  | succ j ih =>
    intro h
    unfold partitionEqualDown
    by_cases hc : (decide (i ≤ j + 1) && x.Less a (j + 1)) = true
    · rw [if_pos hc]
      simp only [Bool.and_eq_true, decide_eq_true_eq] at hc
      obtain ⟨hij, hless⟩ := hc
      rw [Less_iff] at hless
      obtain ⟨r1, r2, r3, r4⟩ := ih hij
      refine ⟨by omega, r2, ?_, r4⟩
      intro k hk hk'
      rcases Nat.eq_or_lt_of_le hk' with h | h
      · rw [h]; exact hless
      · exact r3 k hk (by omega)
    · rw [if_neg hc]
      simp only [Bool.and_eq_true, decide_eq_true_eq, not_and, Bool.not_eq_true] at hc
      exact ⟨le_refl _, by omega, fun k hk hk' => by omega,
        fun h => (Less_false_iff _ _ _).1 (hc h)⟩

theorem partitionEqualLoop_spec (a b : Nat) :
    ∀ (fuel i j : Nat) (x : Cards), a + 1 ≤ i → i ≤ j + 1 → j < b → b ≤ x.length →
      j + 1 - i ≤ fuel →
      (∀ k, a + 1 ≤ k → k < i → nm x k ≤ nm x a) →
      (∀ k, j < k → k < b → nm x a < nm x k) →
      Swaps (a + 1) b x (partitionEqualLoop a fuel i j x).2 ∧
      a + 1 ≤ (partitionEqualLoop a fuel i j x).1 ∧ (partitionEqualLoop a fuel i j x).1 ≤ b ∧
      (∀ k, a + 1 ≤ k → k < (partitionEqualLoop a fuel i j x).1 →
        nm (partitionEqualLoop a fuel i j x).2 k ≤ nm x a) ∧
      (∀ k, (partitionEqualLoop a fuel i j x).1 ≤ k → k < b →
        nm x a < nm (partitionEqualLoop a fuel i j x).2 k) := by
  intro fuel
  induction fuel with
  | zero =>
    intro i j x h1 h2 h3 h4 h5 hlo hhi
    simp only [partitionEqualLoop]
    exact ⟨Swaps.refl _, h1, by omega, hlo, fun k hk hk' => hhi k (by omega) hk'⟩
  | succ fuel ih =>
    intro i j x h1 h2 h3 h4 h5 hlo hhi
    obtain ⟨u1, u2, u3, u4⟩ := partitionEqualUp_spec x a j (j + 1 - i) i h2 (le_refl _)
    obtain ⟨d1, d2, d3, d4⟩ := partitionEqualDown_spec x a (partitionEqualUp x a j (j + 1 - i) i)
      (by omega) j u2
    unfold partitionEqualLoop
    simp only []
    generalize partitionEqualUp x a j (j + 1 - i) i = i' at *
    generalize partitionEqualDown x a i' j = j' at *
    by_cases hc : j' < i'
    · rw [if_pos hc]
      refine ⟨Swaps.refl _, by omega, by omega, ?_, ?_⟩
      · intro k hk hk'
        by_cases hki : k < i
        · exact hlo k hk hki
        · exact u3 k (by omega) (by omega)
      · intro k hk hk'
        by_cases hkj : k ≤ j
        · exact d3 k (by omega) hkj
        · exact hhi k (by omega) hk'
    · rw [if_neg hc]
      have hle : i' ≤ j' := by omega
      have hi'p := u4 (by omega)
      have hj'p := d4 hle
      have hne : i' ≠ j' := by
        intro h
        rw [h] at hi'p
        exact absurd hi'p (not_lt.2 hj'p)
      have hil : i' < x.length := by omega
      have hjl : j' < x.length := by omega
      have hna : nm (x.Swap i' j') a = nm x a :=
        nm_Swap_other x i' j' a hil hjl (by omega) (by omega)
      have hlo' : ∀ k, a + 1 ≤ k → k < i' + 1 → nm (x.Swap i' j') k ≤ nm (x.Swap i' j') a := by
        intro k hk hk'
        rw [hna]
        by_cases hki' : k = i'
        · rw [hki', nm_Swap_left x i' j' hil hjl]; exact hj'p
        · rw [nm_Swap_other x i' j' k hil hjl hki' (by omega)]
          by_cases hki : k < i
          · exact hlo k hk hki
          · exact u3 k (by omega) (by omega)
      have hhi' : ∀ k, j' - 1 < k → k < b → nm (x.Swap i' j') a < nm (x.Swap i' j') k := by
        intro k hk hk'
        rw [hna]
        by_cases hkj' : k = j'
        · rw [hkj', nm_Swap_right x i' j' hil hjl]; exact hi'p
        · rw [nm_Swap_other x i' j' k hil hjl (by omega) hkj']
          by_cases hkj : k ≤ j
          · exact d3 k (by omega) hkj
          · exact hhi k (by omega) hk'
      obtain ⟨r1, r2, r3, r4, r5⟩ := ih (i' + 1) (j' - 1) (x.Swap i' j') (by omega) (by omega)
        (by omega) (by simpa using h4) (by omega) hlo' hhi'
      rw [hna] at r4 r5
      exact ⟨Swaps.step x _ i' j' (by omega) (by omega) (by omega) (by omega) r1, r2, r3, r4, r5⟩

theorem partitionEqual_spec (x : Cards) (a b pivot : Nat) (hap : a ≤ pivot) (hpb : pivot < b)
    (hb : b ≤ x.length) :
    Swaps a b x (partitionEqual x a b pivot).1 ∧
    a + 1 ≤ (partitionEqual x a b pivot).2 ∧ (partitionEqual x a b pivot).2 ≤ b ∧
    (∀ k, a ≤ k → k < (partitionEqual x a b pivot).2 →
      nm (partitionEqual x a b pivot).1 k ≤ nm x pivot) ∧
    (∀ k, (partitionEqual x a b pivot).2 ≤ k → k < b →
      nm x pivot < nm (partitionEqual x a b pivot).1 k) := by
  have hs0 : Swaps a b x (x.Swap a pivot) := Swaps.one x a pivot (le_refl _) (by omega) hap hpb
  have hl0 : b ≤ (x.Swap a pivot).length := by simpa using hb
  have hp : nm (x.Swap a pivot) a = nm x pivot := nm_Swap_left x a pivot (by omega) (by omega)
  obtain ⟨r1, r2, r3, r4, r5⟩ := partitionEqualLoop_spec a b (b - a) (a + 1) (b - 1)
    (x.Swap a pivot) (le_refl _) (by omega) (by omega) hl0 (by omega)
    (fun k hk hk' => by omega) (fun k hk hk' => by omega)
  unfold partitionEqual
  simp only []
  generalize partitionEqualLoop a (b - a) (a + 1) (b - 1) (x.Swap a pivot) = r at *
  rw [hp] at r4 r5
  refine ⟨hs0.trans (r1.mono (by omega) (le_refl _)), r2, r3, ?_, r5⟩
  intro k hk hk'
  rcases Nat.eq_or_lt_of_le hk with h | h
  · rw [← h, r1.nm_outside hl0 a (by omega), hp]
  · exact r4 k (by omega) hk'

/-! ## `reverseRange`, `breakPatterns`, `choosePivot` -/

theorem reverseLoop_swaps (a b : Nat) :
    ∀ (fuel i j : Nat) (x : Cards), a ≤ i → j < b →
      Swaps a b x (reverseLoop fuel i j x) := by
  intro fuel
  induction fuel with
  | zero => intro i j x _ _; exact Swaps.refl _
  | succ fuel ih =>
    intro i j x hi hj
    unfold reverseLoop
    by_cases hc : i < j
    · rw [if_pos hc]
      exact Swaps.step x _ i j hi (by omega) (by omega) hj
        (ih (i + 1) (j - 1) _ (by omega) (by omega))
    · rw [if_neg hc]
      exact Swaps.refl _

theorem reverseRange_swaps (x : Cards) (a b : Nat) (hab : a < b) :
    Swaps a b x (reverseRange x a b) :=
  reverseLoop_swaps a b (b - a) a (b - 1) x (le_refl _) (by omega)

theorem bitsLenAux_bounds :
    ∀ (fuel n : Nat), n ≤ fuel →
      n < 2 ^ bitsLenAux fuel n ∧ (1 ≤ n → 2 ^ bitsLenAux fuel n ≤ 2 * n) := by
  intro fuel
  induction fuel with
  | zero =>
    intro n hn
    have : n = 0 := by omega
    subst this
    simp [bitsLenAux]
  | succ fuel ih =>
    intro n hn
    unfold bitsLenAux
    by_cases h0 : n = 0
    · subst h0; simp
    · rw [if_neg h0]
      obtain ⟨h1, h2⟩ := ih (n / 2) (by omega)
      rw [pow_succ]
      constructor
      · omega
      · intro _
        by_cases hh : n / 2 = 0
        · have hn1 : n = 1 := by omega
          subst hn1
          have : bitsLenAux fuel (1 / 2) = 0 := by
            cases fuel <;> simp [bitsLenAux]
          rw [this]; simp
        · have := h2 (by omega)
          omega

theorem bitsLen_bounds (n : Nat) :
    n < 2 ^ bitsLen n ∧ (1 ≤ n → 2 ^ bitsLen n ≤ 2 * n) :=
  bitsLenAux_bounds n n (le_refl _)

theorem breakPatternsStep_swaps (a b idx i : Nat) (st : Nat × Cards) (h8 : 8 ≤ b - a)
    (hidx : a + 1 ≤ idx - 1 + i) (hidx' : idx - 1 + i < b) :
    Swaps a b st.2 (breakPatternsStep a (b - a) idx st i).2 := by
  unfold breakPatternsStep
  simp only []
  have hb := bitsLen_bounds (b - a)
  have hand : xorshiftNext st.1 &&& (nextPowerOfTwo (b - a) - 1) ≤ nextPowerOfTwo (b - a) - 1 :=
    Nat.and_le_right
  unfold nextPowerOfTwo at hand ⊢
  have h2 := hb.2 (by omega)
  generalize xorshiftNext st.1 &&& (2 ^ bitsLen (b - a) - 1) = other at *
  generalize 2 ^ bitsLen (b - a) = m at *
  apply Swaps.one
  · omega
  · exact hidx'
  · omega
  · split_ifs <;> omega

theorem breakPatterns_swaps (x : Cards) (a b : Nat) :
    Swaps a b x (breakPatterns x a b) := by
  unfold breakPatterns
  simp only []
  by_cases h8 : 8 ≤ b - a
  · rw [if_pos h8]
    have hr : List.range 3 = [0, 1, 2] := by decide
    rw [hr]
    simp only [List.foldl_cons, List.foldl_nil]
    have step := fun st i h1 h2 =>
      breakPatternsStep_swaps a b (a + (b - a) / 4 * 2 - 1) i st h8 h1 h2
    exact ((step (b - a, x) 0 (by omega) (by omega)).trans
      (step _ 1 (by omega) (by omega))).trans (step _ 2 (by omega) (by omega))
  · rw [if_neg h8]
    exact Swaps.refl _

theorem median_mem (d : Cards) (a b c s : Nat) :
    (median d a b c s).1 = a ∨ (median d a b c s).1 = b ∨ (median d a b c s).1 = c := by
  unfold median order2
  simp only []
  split_ifs <;> simp

theorem choosePivot_range (x : Cards) (a b : Nat) (hab : a < b) :
    a ≤ (choosePivot x a b).1 ∧ (choosePivot x a b).1 < b := by
  have key : ∀ (r : Nat × Nat) (p : Nat × sortedHint),
      p = (if r.2 = 0 then (r.1, sortedHint.increasingHint)
        else if r.2 = 12 then (r.1, sortedHint.decreasingHint)
        else (r.1, sortedHint.unknownHint)) → p.1 = r.1 := by
    intro r p hp
    rw [hp]
    split_ifs <;> rfl
  unfold choosePivot
  simp only []
  rw [key _ _ rfl]
  by_cases h8 : 8 ≤ b - a
  · rw [if_pos h8]
    by_cases h50 : 50 ≤ b - a
    · rw [if_pos h50]
      simp only [medianAdjacent]
      have hi := median_mem x (a + (b - a) / 4 * 1 - 1) (a + (b - a) / 4 * 1)
        (a + (b - a) / 4 * 1 + 1) 0
      generalize median x (a + (b - a) / 4 * 1 - 1) (a + (b - a) / 4 * 1)
        (a + (b - a) / 4 * 1 + 1) 0 = ri at *
      have hj := median_mem x (a + (b - a) / 4 * 2 - 1) (a + (b - a) / 4 * 2)
        (a + (b - a) / 4 * 2 + 1) ri.2
      generalize median x (a + (b - a) / 4 * 2 - 1) (a + (b - a) / 4 * 2)
        (a + (b - a) / 4 * 2 + 1) ri.2 = rj at *
      have hk := median_mem x (a + (b - a) / 4 * 3 - 1) (a + (b - a) / 4 * 3)
        (a + (b - a) / 4 * 3 + 1) rj.2
      generalize median x (a + (b - a) / 4 * 3 - 1) (a + (b - a) / 4 * 3)
        (a + (b - a) / 4 * 3 + 1) rj.2 = rk at *
      have hm := median_mem x ri.1 rj.1 rk.1 rk.2
      generalize (median x ri.1 rj.1 rk.1 rk.2).1 = m at *
      omega
    · rw [if_neg h50]
      have hm := median_mem x (a + (b - a) / 4 * 1) (a + (b - a) / 4 * 2)
        (a + (b - a) / 4 * 3) 0
      generalize (median x (a + (b - a) / 4 * 1) (a + (b - a) / 4 * 2)
        (a + (b - a) / 4 * 3) 0).1 = m at *
      omega
  · rw [if_neg h8]
    simp only []
    omega

/-! ## `partialInsertionSort` -/

theorem SortedOn.snoc (x : Cards) (a i : Nat) (hs : SortedOn x a i)
    (h : a + 1 ≤ i → nm x (i - 1) ≤ nm x i) : SortedOn x a (i + 1) := by
  intro p q hp hpq hq
  rcases Nat.eq_or_lt_of_le (Nat.le_of_lt_succ hq) with heq | hlt
  · rcases Nat.eq_or_lt_of_le hpq with hpe | hpl
    · rw [hpe]
    · subst heq
      exact le_trans (hs p (q - 1) hp (by omega) (by omega)) (h (by omega))
  · exact hs p q hp hpq hlt

theorem SortedOn.of_swaps_right {c d : Nat} {x y : Cards} (h : Swaps c d x y)
    (hd : d ≤ x.length) (a i : Nat) (hic : i ≤ c) (hs : SortedOn x a i) : SortedOn y a i := by
  intro p q hp hpq hq
  rw [h.nm_outside hd p (by omega), h.nm_outside hd q (by omega)]
  exact hs p q hp hpq hq

theorem SortedOn.restrict (x : Cards) (a b a' b' : Nat) (hs : SortedOn x a b) (ha : a ≤ a')
    (hb : b' ≤ b) : SortedOn x a' b' := by
  intro p q hp hpq hq
  exact hs p q (by omega) hpq (by omega)

theorem partialScan_spec (x : Cards) (a b : Nat) :
    ∀ (fuel i : Nat), a + 1 ≤ i → i ≤ b → b - i ≤ fuel → SortedOn x a i →
      i ≤ partialScan x b fuel i ∧ partialScan x b fuel i ≤ b ∧
      SortedOn x a (partialScan x b fuel i) := by
  intro fuel
  induction fuel with
  | zero =>
    intro i h1 h2 h3 hs
    simp only [partialScan]
    exact ⟨le_refl _, h2, hs⟩
  | succ fuel ih =>
    intro i h1 h2 h3 hs
    unfold partialScan
    by_cases hc : (decide (i < b) && !x.Less i (i - 1)) = true
    · rw [if_pos hc]
      simp only [Bool.and_eq_true, decide_eq_true_eq, Bool.not_eq_true'] at hc
      obtain ⟨hib, hless⟩ := hc
      rw [Less_false_iff] at hless
      obtain ⟨r1, r2, r3⟩ := ih (i + 1) (by omega) (by omega) (by omega)
        (SortedOn.snoc x a i hs (fun _ => hless))
      exact ⟨by omega, r2, r3⟩
    · rw [if_neg hc]
      exact ⟨le_refl _, h2, hs⟩

theorem partialShiftLeft_eq (a : Nat) :
    ∀ (j : Nat) (x : Cards), a ≤ j → j < x.length →
      (0 < a → ∀ k, a ≤ k → k ≤ j → nm x (a - 1) ≤ nm x k) →
      partialShiftLeft j x = insertionSortInner a j x := by
  intro j
  induction j with
  | zero => intro x _ _ _; rfl
  | succ j ih =>
    intro x haj hj hL
    unfold partialShiftLeft insertionSortInner
    rcases Nat.eq_or_lt_of_le haj with heq | hlt
    · have hnot : ¬ (a < j + 1) := by omega
      have hle : x.Less (j + 1) j = false := by
        rw [Less_false_iff]
        have := hL (by omega) a (le_refl _) (by omega)
        rw [heq] at this
        simpa using this
      simp [hnot, hle]
    · have hlt' : a < j + 1 := hlt
      by_cases hless : x.Less (j + 1) j = true
      · simp only [hless, hlt', decide_True, Bool.and_self, Bool.not_true, if_true]
        simp only [Bool.false_eq_true, if_false]
        apply ih _ (by omega) (by simpa using Nat.lt_of_succ_lt hj)
        intro ha k hk hkj
        have hj1 : j + 1 < x.length := hj
        have hj0 : j < x.length := by omega
        rw [nm_Swap_other x _ _ (a - 1) hj1 hj0 (by omega) (by omega)]
        by_cases hkj' : k = j
        · rw [hkj', nm_Swap_right x _ _ hj1 hj0]
          exact hL ha (j + 1) (by omega) (le_refl _)
        · rw [nm_Swap_other x _ _ k hj1 hj0 (by omega) hkj']
          exact hL ha k hk (by omega)
      · simp [hless]

theorem partialShiftRight_swaps (b : Nat) :
    ∀ (fuel j : Nat) (x : Cards), 1 ≤ j →
      Swaps (j - 1) b x (partialShiftRight b fuel j x) := by
  intro fuel
  induction fuel with
  | zero => intro j x _; exact Swaps.refl _
  | succ fuel ih =>
    intro j x hj
    unfold partialShiftRight
    by_cases hjb : j < b
    · rw [if_pos hjb]
      by_cases hless : (!x.Less j (j - 1)) = true
      · rw [if_pos hless]; exact Swaps.refl _
      · rw [if_neg hless]
        exact Swaps.step x _ j (j - 1) (by omega) hjb (le_refl _) (by omega)
          ((ih (j + 1) _ (by omega)).mono (by omega) (le_refl _))
    · rw [if_neg hjb]; exact Swaps.refl _

theorem partialInsertionLoop_spec (a b : Nat) :
    ∀ (steps i : Nat) (x : Cards), a + 1 ≤ i → i ≤ b → b ≤ x.length →
      SortedOn x a i → LeftBound x a b →
      Swaps a b x (partialInsertionLoop a b steps i x).1 ∧
      ((partialInsertionLoop a b steps i x).2 = true →
        SortedOn (partialInsertionLoop a b steps i x).1 a b) := by
  intro steps
  induction steps with
  | zero =>
    intro i x _ _ _ _ _
    simp only [partialInsertionLoop]
    exact ⟨Swaps.refl _, fun h => by simp at h⟩
  | succ steps ih =>
    intro i x h1 h2 hb hs hL
    obtain ⟨s1, s2, s3⟩ := partialScan_spec x a b (b - i) i h1 h2 (le_refl _) hs
    unfold partialInsertionLoop
    simp only []
    generalize partialScan x b (b - i) i = i' at *
    by_cases hib : i' = b
    · rw [if_pos hib]
      exact ⟨Swaps.refl _, fun _ => hib ▸ s3⟩
    · rw [if_neg hib]
      by_cases h50 : b - a < 50
      · rw [if_pos h50]
        exact ⟨Swaps.refl _, fun h => by simp at h⟩
      · rw [if_neg h50]
        have hil : i' < x.length := by omega
        have hsw1 : Swaps a b x (x.Swap i' (i' - 1)) :=
          Swaps.one x i' (i' - 1) (by omega) (by omega) (by omega) (by omega)
        have hsw1' : Swaps (i' - 1) b x (x.Swap i' (i' - 1)) :=
          Swaps.one x i' (i' - 1) (by omega) (by omega) (by omega) (by omega)
        have hs1 : SortedOn (x.Swap i' (i' - 1)) a (i' - 1) :=
          SortedOn.of_swaps_right hsw1' hb a (i' - 1) (le_refl _)
            (SortedOn.restrict x a i' a (i' - 1) s3 (le_refl _) (by omega))
        generalize x.Swap i' (i' - 1) = d1 at *
        have hl1 : b ≤ d1.length := by rw [hsw1.length_eq]; exact hb
        have hL1 : LeftBound d1 a b := hsw1.leftBound hb hL
        have hd2 : Swaps a i' d1 (if 2 ≤ i' - a then partialShiftLeft (i' - 1) d1 else d1) ∧
            SortedOn (if 2 ≤ i' - a then partialShiftLeft (i' - 1) d1 else d1) a i' := by
          by_cases h2a : 2 ≤ i' - a
          · rw [if_pos h2a]
            rw [partialShiftLeft_eq a (i' - 1) d1 (by omega) (by omega)
              (fun ha k hk hk' => hL1 ha k hk (by omega))]
            have := insertionSortInner_spec a (i' - 1) (i' - 1) d1 (by omega) (le_refl _)
              (by omega) hs1 (SortedOn.of_len_le_one d1 _ _ (le_refl _))
              (by intro k l _ _ _ _; omega)
            have he : i' - 1 + 1 = i' := by omega
            rw [he] at this
            exact this
          · rw [if_neg h2a]
            exact ⟨Swaps.refl _, SortedOn.of_len_le_one d1 a i' (by omega)⟩
        generalize (if 2 ≤ i' - a then partialShiftLeft (i' - 1) d1 else d1) = d2 at *
        have hsw2 : Swaps a b d1 d2 := hd2.1.mono (le_refl _) (by omega)
        have hl2 : b ≤ d2.length := by rw [hsw2.length_eq]; exact hl1
        have hd3 : Swaps i' b d2
            (if 2 ≤ b - i' then partialShiftRight b (b - (i' + 1)) (i' + 1) d2 else d2) := by
          by_cases h2b : 2 ≤ b - i'
          · rw [if_pos h2b]
            exact partialShiftRight_swaps b _ (i' + 1) d2 (by omega)
          · rw [if_neg h2b]
            exact Swaps.refl _
        generalize (if 2 ≤ b - i' then partialShiftRight b (b - (i' + 1)) (i' + 1) d2 else d2)
          = d3 at *
        have hsw3 : Swaps a b d2 d3 := hd3.mono (by omega) (le_refl _)
        have hl3 : b ≤ d3.length := by rw [hsw3.length_eq]; exact hl2
        have hs3 : SortedOn d3 a i' := SortedOn.of_swaps_right hd3 hl2 a i' (le_refl _) hd2.2
        have hL3 : LeftBound d3 a b := hsw3.leftBound hl2 (hsw2.leftBound hl1 hL1)
        obtain ⟨r1, r2⟩ := ih i' d3 (by omega) s2 hl3 hs3 hL3
        exact ⟨((hsw1.trans hsw2).trans hsw3).trans r1, r2⟩

theorem partialInsertionSort_spec (x : Cards) (a b : Nat) (hab : a < b) (hb : b ≤ x.length)
    (hL : LeftBound x a b) :
    Swaps a b x (partialInsertionSort x a b).1 ∧
    ((partialInsertionSort x a b).2 = true → SortedOn (partialInsertionSort x a b).1 a b) :=
  partialInsertionLoop_spec a b 5 (a + 1) x (le_refl _) (by omega) hb
    (SortedOn.of_len_le_one x a (a + 1) (le_refl _)) hL

/-! ## `heapSort` -/

theorem nm_heapSwap (x : Cards) (first r c i : Nat) (hr : first + r < x.length)
    (hc : first + c < x.length) :
    nm (x.Swap (first + r) (first + c)) (first + i) =
      if i = c then nm x (first + r) else if i = r then nm x (first + c)
      else nm x (first + i) := by
  rw [nm_Swap x _ _ _ hr hc]
  by_cases h1 : i = c
  · simp [h1]
  · by_cases h2 : i = r
    · simp [h1, h2]
    · simp [h1, h2]

theorem siftDownLoop_spec (hi first lo : Nat) :
    ∀ (fuel r : Nat) (x : Cards), lo ≤ r → hi ≤ r + fuel → first + hi ≤ x.length →
      (∀ i, lo ≤ i → i ≠ r → HeapAt x first hi i) →
      (∀ p, lo ≤ p → (r = 2 * p + 1 ∨ r = 2 * p + 2) →
        (2 * r + 1 < hi → nm x (first + (2 * r + 1)) ≤ nm x (first + p)) ∧
        (2 * r + 2 < hi → nm x (first + (2 * r + 2)) ≤ nm x (first + p))) →
      Swaps (first + lo) (first + hi) x (siftDownLoop hi first fuel r x) ∧
        ∀ i, lo ≤ i → HeapAt (siftDownLoop hi first fuel r x) first hi i := by
  intro fuel
  induction fuel with
  | zero =>
    intro r x hlo hf hlen hA hB
    simp only [siftDownLoop]
    refine ⟨Swaps.refl _, fun i hi' => ?_⟩
    by_cases hir : i = r
    · subst hir
      exact ⟨fun h => by omega, fun h => by omega⟩
    · exact hA i hi' hir
  | succ fuel ih =>
    intro r x hlo hf hlen hA hB
    unfold siftDownLoop
    simp only []
    by_cases h1 : hi ≤ 2 * r + 1
    · rw [if_pos h1]
      refine ⟨Swaps.refl _, fun i hi' => ?_⟩
      by_cases hir : i = r
      · subst hir
        exact ⟨fun h => by omega, fun h => by omega⟩
      · exact hA i hi' hir
    · rw [if_neg h1]
      have hadd : first + (2 * r + 1) + 1 = first + (2 * r + 2) := by omega
      have hc : ∃ c, (if (decide (2 * r + 1 + 1 < hi) &&
            x.Less (first + (2 * r + 1)) (first + (2 * r + 1) + 1)) = true
          then 2 * r + 1 + 1 else 2 * r + 1) = c ∧ (c = 2 * r + 1 ∨ c = 2 * r + 2) ∧ c < hi ∧
          nm x (first + (2 * r + 1)) ≤ nm x (first + c) ∧
          (2 * r + 2 < hi → nm x (first + (2 * r + 2)) ≤ nm x (first + c)) := by
        by_cases hcc : (decide (2 * r + 1 + 1 < hi) &&
            x.Less (first + (2 * r + 1)) (first + (2 * r + 1) + 1)) = true
        · rw [if_pos hcc]
          simp only [Bool.and_eq_true, decide_eq_true_eq] at hcc
          obtain ⟨hlt, hless⟩ := hcc
          rw [Less_iff, hadd] at hless
          exact ⟨_, rfl, Or.inr rfl, hlt, le_of_lt hless, fun _ => le_refl _⟩
        · rw [if_neg hcc]
          simp only [Bool.and_eq_true, decide_eq_true_eq, not_and, Bool.not_eq_true] at hcc
          refine ⟨_, rfl, Or.inl rfl, by omega, le_refl _, fun h => ?_⟩
          have := hcc (by omega)
          rw [Less_false_iff, hadd] at this
          exact this
      obtain ⟨c, hceq, hcr, hchi, hc1, hc2⟩ := hc
      rw [hceq]
      by_cases hless : (!x.Less (first + r) (first + c)) = true
      · rw [if_pos hless]
        simp only [Bool.not_eq_true', Less_false_iff] at hless
        refine ⟨Swaps.refl _, fun i hi' => ?_⟩
        by_cases hir : i = r
        · subst hir
          exact ⟨fun _ => le_trans hc1 hless, fun h => le_trans (hc2 h) hless⟩
        · exact hA i hi' hir
      · rw [if_neg hless]
        simp only [Bool.not_eq_true', Bool.not_eq_false, Less_iff] at hless
        have hrl : first + r < x.length := by omega
        have hcl : first + c < x.length := by omega
        have hA' : ∀ i, lo ≤ i → i ≠ c →
            HeapAt (x.Swap (first + r) (first + c)) first hi i := by
          intro i hi' hic
          by_cases hir : i = r
          · subst hir
            constructor
            · intro h
              rw [nm_heapSwap x first i c _ hrl hcl, nm_heapSwap x first i c i hrl hcl]
              simp only [hic, if_true, if_false]
              by_cases hcc : 2 * i + 1 = c
              · simp only [hcc, if_true]; exact le_of_lt hless
              · have hne : 2 * i + 1 ≠ i := by omega
                simp only [hcc, hne, if_false]; exact hc1
            · intro h
              rw [nm_heapSwap x first i c _ hrl hcl, nm_heapSwap x first i c i hrl hcl]
              simp only [hic, if_true, if_false]
              by_cases hcc : 2 * i + 2 = c
              · simp only [hcc, if_true]; exact le_of_lt hless
              · have hne : 2 * i + 2 ≠ i := by omega
                simp only [hcc, hne, if_false]; exact hc2 h
          · have hAi := hA i hi' hir
            constructor
            · intro h
              rw [nm_heapSwap x first r c _ hrl hcl, nm_heapSwap x first r c i hrl hcl]
              have hne : 2 * i + 1 ≠ c := by omega
              simp only [hic, hir, hne, if_false]
              by_cases hch : 2 * i + 1 = r
              · simp only [hch, if_true]
                rcases hcr with hcr | hcr
                · rw [hcr]; exact (hB i hi' (Or.inl hch.symm)).1 (by omega)
                · rw [hcr]; exact (hB i hi' (Or.inl hch.symm)).2 (by omega)
              · simp only [hch, if_false]; exact hAi.1 h
            · intro h
              rw [nm_heapSwap x first r c _ hrl hcl, nm_heapSwap x first r c i hrl hcl]
              have hne : 2 * i + 2 ≠ c := by omega
              simp only [hic, hir, hne, if_false]
              by_cases hch : 2 * i + 2 = r
              · simp only [hch, if_true]
                rcases hcr with hcr | hcr
                · rw [hcr]; exact (hB i hi' (Or.inr hch.symm)).1 (by omega)
                · rw [hcr]; exact (hB i hi' (Or.inr hch.symm)).2 (by omega)
              · simp only [hch, if_false]; exact hAi.2 h
        have hB' : ∀ p, lo ≤ p → (c = 2 * p + 1 ∨ c = 2 * p + 2) →
            (2 * c + 1 < hi → nm (x.Swap (first + r) (first + c)) (first + (2 * c + 1))
              ≤ nm (x.Swap (first + r) (first + c)) (first + p)) ∧
            (2 * c + 2 < hi → nm (x.Swap (first + r) (first + c)) (first + (2 * c + 2))
              ≤ nm (x.Swap (first + r) (first + c)) (first + p)) := by
          intro p hp hpc
          have hpr : p = r := by omega
          subst hpr
          have hAc := hA c (by omega) (by omega)
          have hpc' : p ≠ c := by omega
          constructor
          · intro h
            rw [nm_heapSwap x first p c _ hrl hcl, nm_heapSwap x first p c p hrl hcl]
            have n1 : 2 * c + 1 ≠ c := by omega
            have n2 : 2 * c + 1 ≠ p := by omega
            simp only [n1, n2, hpc', if_true, if_false]
            exact hAc.1 h
          · intro h
            rw [nm_heapSwap x first p c _ hrl hcl, nm_heapSwap x first p c p hrl hcl]
            have n1 : 2 * c + 2 ≠ c := by omega
            have n2 : 2 * c + 2 ≠ p := by omega
            simp only [n1, n2, hpc', if_true, if_false]
            exact hAc.2 h
        obtain ⟨r1, r2⟩ := ih c (x.Swap (first + r) (first + c)) (by omega) (by omega)
          (by simpa using hlen) hA' hB'
        exact ⟨Swaps.step x _ (first + r) (first + c) (by omega) (by omega) (by omega)
          (by omega) r1, r2⟩

theorem siftDown_spec (x : Cards) (lo hi first : Nat) (hlen : first + hi ≤ x.length)
    (hA : ∀ i, lo ≤ i → i ≠ lo → HeapAt x first hi i)
    (hB : ∀ p, lo ≤ p → (lo = 2 * p + 1 ∨ lo = 2 * p + 2) →
        (2 * lo + 1 < hi → nm x (first + (2 * lo + 1)) ≤ nm x (first + p)) ∧
        (2 * lo + 2 < hi → nm x (first + (2 * lo + 2)) ≤ nm x (first + p))) :
    Swaps (first + lo) (first + hi) x (siftDown x lo hi first) ∧
      ∀ i, lo ≤ i → HeapAt (siftDown x lo hi first) first hi i :=
  siftDownLoop_spec hi first lo hi lo x (le_refl _) (by omega) hlen hA hB

theorem heap_root_max (x : Cards) (first n : Nat) (hH : ∀ i, HeapAt x first n i) :
    ∀ k, k < n → nm x (first + k) ≤ nm x (first + 0) := by
  intro k
  induction k using Nat.strong_induction_on with
  | _ k ih =>
    intro hk
    rcases Nat.eq_zero_or_pos k with h0 | hpos
    · subst h0; exact le_refl _
    · have hp := ih ((k - 1) / 2) (by omega) (by omega)
      have hH' := hH ((k - 1) / 2)
      rcases Nat.mod_two_eq_zero_or_one k with hm | hm
      · have he : 2 * ((k - 1) / 2) + 2 = k := by omega
        have := hH'.2 (by omega)
        rw [he] at this
        exact le_trans this hp
      · have he : 2 * ((k - 1) / 2) + 1 = k := by omega
        have := hH'.1 (by omega)
        rw [he] at this
        exact le_trans this hp

theorem heapBuild_spec (first hi : Nat) :
    ∀ (n : Nat) (x : Cards), first + hi ≤ x.length →
      (∀ i, n ≤ i → HeapAt x first hi i) →
      Swaps first (first + hi) x
        ((List.range n).reverse.foldl (fun d i => siftDown d i hi first) x) ∧
      ∀ i, HeapAt ((List.range n).reverse.foldl (fun d i => siftDown d i hi first) x)
        first hi i := by
  intro n
  induction n with
  | zero =>
    intro x _ hH
    simp only [List.range_zero, List.reverse_nil, List.foldl_nil]
    exact ⟨Swaps.refl _, fun i => hH i (Nat.zero_le _)⟩
  | succ n ih =>
    intro x hlen hH
    rw [List.range_succ, List.reverse_append]
    simp only [List.reverse_cons, List.reverse_nil, List.nil_append, List.singleton_append,
      List.foldl_cons]
    obtain ⟨s1, s2⟩ := siftDown_spec x n hi first hlen
      (fun i hi' hne => hH i (by omega)) (fun p hp hpn => by omega)
    obtain ⟨r1, r2⟩ := ih (siftDown x n hi first) (by rw [s1.length_eq]; exact hlen) s2
    exact ⟨(s1.mono (by omega) (le_refl _)).trans r1, r2⟩

theorem heapPop_spec (first hi : Nat) :
    ∀ (n : Nat) (x : Cards), n ≤ hi → first + hi ≤ x.length →
      (∀ i, HeapAt x first n i) →
      SortedOn x (first + n) (first + hi) →
      (∀ k l, k < n → n ≤ l → l < hi → nm x (first + k) ≤ nm x (first + l)) →
      Swaps first (first + hi) x
        ((List.range n).reverse.foldl
          (fun d i => siftDown (d.Swap first (first + i)) 0 i first) x) ∧
      SortedOn ((List.range n).reverse.foldl
          (fun d i => siftDown (d.Swap first (first + i)) 0 i first) x) first (first + hi) := by
  intro n
  induction n with
  | zero =>
    intro x _ _ _ hs _
    simp only [List.range_zero, List.reverse_nil, List.foldl_nil]
    exact ⟨Swaps.refl _, by simpa using hs⟩
  | succ n ih =>
    intro x hn hlen hH hs hcross
    rw [List.range_succ, List.reverse_append]
    simp only [List.reverse_cons, List.reverse_nil, List.nil_append, List.singleton_append,
      List.foldl_cons]
    have hmax := heap_root_max x first (n + 1) hH
    have hfl : first < x.length := by omega
    have hnl : first + n < x.length := by omega
    have hsw1 : Swaps first (first + hi) x (x.Swap first (first + n)) :=
      Swaps.one x first (first + n) (le_refl _) (by omega) (by omega) (by omega)
    -- names after the swap
    have hk1 : ∀ i, nm (x.Swap first (first + n)) (first + i) =
        if i = n then nm x (first + 0) else if i = 0 then nm x (first + n)
        else nm x (first + i) := by
      intro i
      have := nm_heapSwap x first 0 n i (by simpa using hfl) hnl
      simpa using this
    have hle1 : ∀ k, k < n → nm (x.Swap first (first + n)) (first + k) ≤ nm x (first + 0) := by
      intro k hk
      rw [hk1 k]
      have hkn : k ≠ n := by omega
      simp only [hkn, if_false]
      by_cases hk0 : k = 0
      · simp only [hk0, if_true]; exact hmax n (by omega)
      · simp only [hk0, if_false]; exact hmax k (by omega)
    have hs1 : SortedOn (x.Swap first (first + n)) (first + n) (first + hi) := by
      intro p q hp hpq hq
      obtain ⟨p', rfl⟩ : ∃ p', p = first + p' := ⟨p - first, by omega⟩
      obtain ⟨q', rfl⟩ : ∃ q', q = first + q' := ⟨q - first, by omega⟩
      rw [hk1 p', hk1 q']
      by_cases hpn : p' = n
      · by_cases hqn : q' = n
        · simp [hpn, hqn]
        · have hq0 : q' ≠ 0 := by omega
          simp only [hpn, hqn, hq0, if_true, if_false]
          exact hcross 0 q' (by omega) (by omega) (by omega)
      · have hqn : q' ≠ n := by omega
        have hp0 : p' ≠ 0 := by omega
        have hq0 : q' ≠ 0 := by omega
        simp only [hpn, hqn, hp0, hq0, if_false]
        exact hs (first + p') (first + q') (by omega) hpq hq
    have hcross1 : ∀ k l, k < n → n ≤ l → l < hi →
        nm (x.Swap first (first + n)) (first + k) ≤ nm (x.Swap first (first + n)) (first + l) := by
      intro k l hk hl hlhi
      refine le_trans (hle1 k hk) ?_
      rw [hk1 l]
      by_cases hln : l = n
      · simp [hln]
      · have hl0 : l ≠ 0 := by omega
        simp only [hln, hl0, if_false]
        exact hcross 0 l (by omega) (by omega) hlhi
    have hA1 : ∀ i, 0 ≤ i → i ≠ 0 → HeapAt (x.Swap first (first + n)) first n i := by
      intro i _ hi0
      have hHi := hH i
      constructor
      · intro h
        rw [hk1, hk1]
        have e1 : 2 * i + 1 ≠ n := by omega
        have e2 : 2 * i + 1 ≠ 0 := by omega
        have e3 : i ≠ n := by omega
        simp only [e1, e2, e3, hi0, if_false]
        exact hHi.1 (by omega)
      · intro h
        rw [hk1, hk1]
        have e1 : 2 * i + 2 ≠ n := by omega
        have e2 : 2 * i + 2 ≠ 0 := by omega
        have e3 : i ≠ n := by omega
        simp only [e1, e2, e3, hi0, if_false]
        exact hHi.2 (by omega)
    generalize x.Swap first (first + n) = x1 at *
    have hl1 : first + hi ≤ x1.length := by rw [hsw1.length_eq]; exact hlen
    obtain ⟨s1, s2⟩ := siftDown_spec x1 0 n first (by omega) hA1 (fun p _ hp => by omega)
    have s1' : Swaps first (first + n) x1 (siftDown x1 0 n first) := by simpa using s1
    generalize siftDown x1 0 n first = x2 at *
    have hl2 : first + hi ≤ x2.length := by rw [s1'.length_eq]; exact hl1
    have hs2 : SortedOn x2 (first + n) (first + hi) := by
      intro p q hp hpq hq
      rw [s1'.nm_outside (by omega) p (by omega), s1'.nm_outside (by omega) q (by omega)]
      exact hs1 p q hp hpq hq
    have hcross2 : ∀ k l, k < n → n ≤ l → l < hi →
        nm x2 (first + k) ≤ nm x2 (first + l) := by
      intro k l hk hl hlhi
      rw [s1'.nm_outside (by omega) (first + l) (by omega)]
      refine s1'.forall_nm (by omega) (fun s => s ≤ nm x1 (first + l)) ?_ (first + k)
        (by omega) (by omega)
      intro j hj hj'
      obtain ⟨j', rfl⟩ : ∃ j', j = first + j' := ⟨j - first, by omega⟩
      exact hcross1 j' l (by omega) hl hlhi
    obtain ⟨r1, r2⟩ := ih x2 (by omega) hl2 (fun i => s2 i (Nat.zero_le _)) hs2 hcross2
    exact ⟨(hsw1.trans (s1'.mono (le_refl _) (by omega))).trans r1, r2⟩

theorem heapSort_spec (x : Cards) (a b : Nat) (hab : a ≤ b) (hb : b ≤ x.length) :
    Swaps a b x (heapSort x a b) ∧ SortedOn (heapSort x a b) a b := by
  unfold heapSort
  simp only []
  have hab' : a + (b - a) = b := by omega
  obtain ⟨b1, b2⟩ := heapBuild_spec a (b - a) ((b - a - 1) / 2 + 1) x (by omega)
    (fun i hi' => ⟨fun h => by omega, fun h => by omega⟩)
  generalize (List.range ((b - a - 1) / 2 + 1)).reverse.foldl
    (fun d i => siftDown d i (b - a) a) x = y at *
  obtain ⟨p1, p2⟩ := heapPop_spec a (b - a) (b - a) y (le_refl _)
    (by rw [b1.length_eq]; omega) b2 (SortedOn.of_len_le_one y _ _ (by omega))
    (fun k l hk hl hl' => by omega)
  rw [hab'] at b1 p1 p2
  exact ⟨b1.trans p1, p2⟩

/-! ## `pdqsort` -/

theorem LeftBound.shrink (x : Cards) (a b b' : Nat) (h : LeftBound x a b) (hb : b' ≤ b) :
    LeftBound x a b' :=
  fun ha k hk hk' => h ha k hk (by omega)

theorem SortedOn.of_swaps_left {c d : Nat} {x y : Cards} (h : Swaps c d x y)
    (hd : d ≤ x.length) (a b : Nat) (hda : d ≤ a) (hs : SortedOn x a b) : SortedOn y a b := by
  intro p q hp hpq hq
  rw [h.nm_outside hd p (by omega), h.nm_outside hd q (by omega)]
  exact hs p q hp hpq hq

/-- Sorted halves around a pivot position make a sorted range. -/
theorem SortedOn.join (z : Cards) (a mid b : Nat)
    (h1 : SortedOn z a mid) (h2 : SortedOn z (mid + 1) b)
    (hlo : ∀ k, a ≤ k → k < mid → nm z k ≤ nm z mid)
    (hhi : ∀ k, mid < k → k < b → nm z mid ≤ nm z k) : SortedOn z a b := by
  intro p q hp hpq hq
  rcases Nat.lt_trichotomy p mid with h | h | h
  · rcases Nat.lt_trichotomy q mid with h' | h' | h'
    · exact h1 p q hp hpq h'
    · rw [h']; exact hlo p hp h
    · exact le_trans (hlo p hp h) (hhi q h' hq)
  · rcases Nat.eq_or_lt_of_le hpq with h' | h'
    · rw [h']
    · rw [h]; exact hhi q (by omega) hq
  · exact h2 p q (by omega) hpq hq

theorem pdqsortLoop_spec :
    ∀ (fuel : Nat) (x : Cards) (a b limit : Nat) (wb wp : Bool),
      a ≤ b → b ≤ x.length → b - a ≤ fuel → LeftBound x a b →
      Swaps a b x (pdqsortLoop fuel x a b limit wb wp) ∧
        SortedOn (pdqsortLoop fuel x a b limit wb wp) a b := by
  intro fuel
  induction fuel with
  | zero =>
    intro x a b limit wb wp _ hb _ _
    simp only [pdqsortLoop]
    exact insertionSort_spec x a b hb
  | succ fuel ih =>
    intro x a b limit wb wp hab hb hfuel hL
    unfold pdqsortLoop
    simp only []
    by_cases h12 : b - a ≤ 12
    · rw [if_pos h12]
      exact insertionSort_spec x a b hb
    rw [if_neg h12]
    by_cases hlim : limit = 0
    · rw [if_pos hlim]
      exact heapSort_spec x a b hab hb
    rw [if_neg hlim]
    -- breakPatterns
    have hsw1 : Swaps a b x (if (!wb) = true then breakPatterns x a b else x) := by
      split_ifs
      · exact breakPatterns_swaps x a b
      · exact Swaps.refl _
    generalize (if (!wb) = true then breakPatterns x a b else x) = d1 at *
    generalize (if (!wb) = true then limit - 1 else limit) = limit' at *
    have hl1 : b ≤ d1.length := by rw [hsw1.length_eq]; exact hb
    -- choosePivot
    have hcp := choosePivot_range d1 a b (by omega)
    generalize choosePivot d1 a b = ph at *
    generalize decide (ph.2 = sortedHint.decreasingHint) = rev at *
    have hsw2 : Swaps a b d1 (if rev = true then reverseRange d1 a b else d1) := by
      split_ifs
      · exact reverseRange_swaps d1 a b (by omega)
      · exact Swaps.refl _
    generalize (if rev = true then reverseRange d1 a b else d1) = d2 at *
    have hl2 : b ≤ d2.length := by rw [hsw2.length_eq]; exact hl1
    have hL2 : LeftBound d2 a b := hsw2.leftBound hl1 (hsw1.leftBound hb hL)
    have hpiv : a ≤ (if rev = true then b - 1 - (ph.1 - a) else ph.1) ∧
        (if rev = true then b - 1 - (ph.1 - a) else ph.1) < b := by
      split_ifs <;> omega
    generalize (if rev = true then b - 1 - (ph.1 - a) else ph.1) = pivot at *
    generalize (wb && wp && decide ((if rev = true then sortedHint.increasingHint else ph.2)
      = sortedHint.increasingHint)) = cnd at *
    -- partialInsertionSort
    have hpis : Swaps a b d2 (if cnd = true then partialInsertionSort d2 a b else (d2, false)).1 ∧
        ((if cnd = true then partialInsertionSort d2 a b else (d2, false)).2 = true →
          SortedOn (if cnd = true then partialInsertionSort d2 a b else (d2, false)).1 a b) := by
      split_ifs
      · exact partialInsertionSort_spec d2 a b (by omega) hl2 hL2
      · exact ⟨Swaps.refl _, fun h => by simp at h⟩
    generalize (if cnd = true then partialInsertionSort d2 a b else (d2, false)) = pis at *
    have hsw3 : Swaps a b x pis.1 := (hsw1.trans hsw2).trans hpis.1
    by_cases hdone : pis.2 = true
    · rw [if_pos hdone]
      exact ⟨hsw3, hpis.2 hdone⟩
    rw [if_neg hdone]
    have hl3 : b ≤ pis.1.length := by rw [hsw3.length_eq]; exact hb
    have hL3 : LeftBound pis.1 a b := hsw3.leftBound hb hL
    generalize pis.1 = d3 at *
    by_cases heq : (decide (0 < a) && !d3.Less (a - 1) pivot) = true
    · -- partitionEqual
      rw [if_pos heq]
      simp only [Bool.and_eq_true, decide_eq_true_eq, Bool.not_eq_true', Less_false_iff] at heq
      obtain ⟨ha0, hple⟩ := heq
      obtain ⟨e1, e2, e3, e4, e5⟩ := partitionEqual_spec d3 a b pivot hpiv.1 hpiv.2 hl3
      generalize partitionEqual d3 a b pivot = pe at *
      have hle : b ≤ pe.1.length := by rw [e1.length_eq]; exact hl3
      have hLe : LeftBound pe.1 a b := e1.leftBound hl3 hL3
      have hprev : nm pe.1 (a - 1) = nm d3 (a - 1) := e1.nm_outside hl3 (a - 1) (by omega)
      obtain ⟨r1, r2⟩ := ih pe.1 pe.2 b limit' wb wp e3 hle (by omega)
        (fun _ k hk hk' => le_of_lt (lt_of_le_of_lt (e4 (pe.2 - 1) (by omega) (by omega))
          (e5 k hk hk')))
      refine ⟨(hsw3.trans e1).trans (r1.mono (by omega) (le_refl _)), ?_⟩
      intro p q hp hpq hq
      by_cases hqm : q < pe.2
      · rw [r1.nm_outside hle p (by omega), r1.nm_outside hle q (by omega)]
        have h1 := e4 p hp (by omega)
        have h2 := hLe ha0 q (by omega) hq
        rw [hprev] at h2
        exact le_trans h1 (le_trans hple h2)
      · by_cases hpm : p < pe.2
        · rw [r1.nm_outside hle p (by omega)]
          have h1 := e4 p hp hpm
          have h2 := r1.forall_nm hle (fun s => nm d3 pivot < s) e5 q (by omega) hq
          exact le_trans h1 (le_of_lt h2)
        · exact r2 p q (by omega) hpq hq
    · -- partition
      rw [if_neg heq]
      obtain ⟨q1, q2, q3, q4, q5⟩ := partition_spec d3 a b pivot hpiv.1 hpiv.2 hl3
      generalize partition d3 a b pivot = pr at *
      obtain ⟨d4, mid, wp'⟩ := pr
      simp only [] at q1 q2 q3 q4 q5 ⊢
      have hl4 : b ≤ d4.length := by rw [q1.length_eq]; exact hl3
      have hL4 : LeftBound d4 a b := q1.leftBound hl3 hL3
      have hsw4 : Swaps a b x d4 := hsw3.trans q1
      by_cases hside : mid - a < b - mid
      · rw [if_pos hside]
        -- left part first, then the right part
        obtain ⟨l1, l2⟩ := ih d4 a mid limit' true true q2 (by omega) (by omega)
          (LeftBound.shrink d4 a b mid hL4 (by omega))
        generalize pdqsortLoop fuel d4 a mid limit' true true = d5 at *
        have hl5 : b ≤ d5.length := by rw [l1.length_eq]; exact hl4
        have hm5 : nm d5 mid = nm d4 mid := l1.nm_outside (by omega) mid (by omega)
        have hlo5 : ∀ k, a ≤ k → k < mid → nm d5 k < nm d5 mid := by
          rw [hm5]
          exact l1.forall_nm (by omega) (fun s => s < nm d4 mid) q4
        have hhi5 : ∀ k, mid < k → k < b → nm d5 mid ≤ nm d5 k := by
          intro k hk hk'
          rw [hm5, l1.nm_outside (by omega) k (by omega)]
          exact q5 k hk hk'
        generalize decide ((b - a) / 8 ≤ mid - a) = wb' at *
        obtain ⟨r1, r2⟩ := ih d5 (mid + 1) b limit' wb' wp'
          (by omega) hl5 (by omega) (fun _ k hk hk' => by simpa using hhi5 k (by omega) hk')
        generalize pdqsortLoop fuel d5 (mid + 1) b limit' wb' wp' = d6 at *
        have hm6 : nm d6 mid = nm d5 mid := r1.nm_outside hl5 mid (by omega)
        refine ⟨(hsw4.trans (l1.mono (le_refl _) (by omega))).trans
          (r1.mono (by omega) (le_refl _)), ?_⟩
        apply SortedOn.join d6 a mid b
        · exact SortedOn.of_swaps_right r1 hl5 a mid (by omega) l2
        · exact r2
        · intro k hk hk'
          rw [hm6, r1.nm_outside hl5 k (by omega)]
          exact le_of_lt (hlo5 k hk hk')
        · rw [hm6]
          exact r1.forall_nm hl5 (fun s => nm d5 mid ≤ s) (fun k hk hk' => hhi5 k (by omega) hk')
      · rw [if_neg hside]
        -- right part first, then the left part
        obtain ⟨r1, r2⟩ := ih d4 (mid + 1) b limit' true true (by omega) hl4 (by omega)
          (fun _ k hk hk' => by simpa using q5 k (by omega) hk')
        generalize pdqsortLoop fuel d4 (mid + 1) b limit' true true = d5 at *
        have hl5 : b ≤ d5.length := by rw [r1.length_eq]; exact hl4
        have hm5 : nm d5 mid = nm d4 mid := r1.nm_outside hl4 mid (by omega)
        have hL5 : LeftBound d5 a b :=
          (r1.mono (show a ≤ mid + 1 by omega) (le_refl _)).leftBound hl4 hL4
        have hlo5 : ∀ k, a ≤ k → k < mid → nm d5 k < nm d5 mid := by
          intro k hk hk'
          rw [hm5, r1.nm_outside hl4 k (by omega)]
          exact q4 k hk hk'
        have hhi5 : ∀ k, mid < k → k < b → nm d5 mid ≤ nm d5 k := by
          rw [hm5]
          intro k hk hk'
          exact r1.forall_nm hl4 (fun s => nm d4 mid ≤ s)
            (fun k hk hk' => q5 k (by omega) hk') k (by omega) hk'
        generalize decide ((b - a) / 8 ≤ b - mid) = wb' at *
        obtain ⟨l1, l2⟩ := ih d5 a mid limit' wb' wp' q2 (by omega) (by omega)
          (LeftBound.shrink d5 a b mid hL5 (by omega))
        generalize pdqsortLoop fuel d5 a mid limit' wb' wp' = d6 at *
        have hm6 : nm d6 mid = nm d5 mid := l1.nm_outside (by omega) mid (by omega)
        refine ⟨(hsw4.trans (r1.mono (by omega) (le_refl _))).trans
          (l1.mono (le_refl _) (by omega)), ?_⟩
        apply SortedOn.join d6 a mid b
        · exact l2
        · exact SortedOn.of_swaps_left l1 (by omega) (mid + 1) b (by omega) r2
        · rw [hm6]
          exact l1.forall_nm (by omega) (fun s => s ≤ nm d5 mid)
            (fun k hk hk' => le_of_lt (hlo5 k hk hk'))
        · intro k hk hk'
          rw [hm6, l1.nm_outside (by omega) k (by omega)]
          exact hhi5 k hk hk'

theorem pdqsort_spec (x : Cards) (a b limit : Nat) (hab : a ≤ b) (hb : b ≤ x.length)
    (hL : LeftBound x a b) :
    Swaps a b x (pdqsort x a b limit) ∧ SortedOn (pdqsort x a b limit) a b :=
  pdqsortLoop_spec (b - a) x a b limit true true hab hb (le_refl _) hL

theorem sortSort_spec (x : Cards) :
    Swaps 0 x.length x (sortSort x) ∧ SortedOn (sortSort x) 0 x.length := by
  unfold sortSort Cards.Len
  simp only []
  by_cases h : x.length ≤ 1
  · rw [if_pos h]
    exact ⟨Swaps.refl _, SortedOn.of_len_le_one x 0 _ (by omega)⟩
  · rw [if_neg h]
    exact pdqsort_spec x 0 x.length _ (Nat.zero_le _) (le_refl _) (fun h0 => by omega)

/-! ## What `sort.Sort` guarantees -/

theorem sortSort_perm (x : Cards) : (sortSort x).Perm x :=
  (sortSort_spec x).1.perm (le_refl _)

theorem sortSort_length (x : Cards) : (sortSort x).length = x.length :=
  (sortSort_spec x).1.length_eq

theorem namesAscending_of_sortedOn (y : Cards) (h : SortedOn y 0 y.length) :
    NamesAscending y := by
  unfold NamesAscending
  rw [List.pairwise_iff_getElem]
  intro i j hi hj hij
  rw [stringLess_false_iff]
  have := h i j (Nat.zero_le _) (le_of_lt hij) hj
  simpa [nm, List.getD_eq_getElem?_getD, List.getElem?_eq_getElem hi,
    List.getElem?_eq_getElem hj] using this

theorem sortSort_namesAscending (x : Cards) : NamesAscending (sortSort x) := by
  apply namesAscending_of_sortedOn
  rw [sortSort_length]
  exact (sortSort_spec x).2

/-! ## The bounds of the loops are never exhausted

Each loop that recurses on an explicit bound yields the same result for any
two bounds that are at least the number of rounds left, so the bound the
embedding passes never cuts a loop short. -/

theorem bitsLenAux_fuel :
    ∀ (f1 f2 n : Nat), n ≤ f1 → n ≤ f2 → bitsLenAux f1 n = bitsLenAux f2 n := by
  intro f1
  induction f1 with
  | zero =>
    intro f2 n h1 _
    have : n = 0 := by omega
    subst this
    cases f2 <;> simp [bitsLenAux]
  | succ f1 ih =>
    intro f2 n h1 h2
    cases f2 with
    | zero =>
      have : n = 0 := by omega
      subst this
      simp [bitsLenAux]
    | succ f2 =>
      simp only [bitsLenAux]
      by_cases h0 : n = 0
      · simp [h0]
      · simp only [h0, if_false]
        rw [ih f2 (n / 2) (by omega) (by omega)]

theorem partitionUp_fuel (x : Cards) (a j : Nat) :
    ∀ (f1 f2 i : Nat), j + 1 - i ≤ f1 → j + 1 - i ≤ f2 →
      partitionUp x a j f1 i = partitionUp x a j f2 i := by
  intro f1
  induction f1 with
  | zero =>
    intro f2 i h1 _
    cases f2 with
    | zero => rfl
    | succ f2 =>
      have hij : ¬ i ≤ j := by omega
      simp [partitionUp, hij]
  | succ f1 ih =>
    intro f2 i h1 h2
    cases f2 with
    | zero =>
      have hij : ¬ i ≤ j := by omega
      simp [partitionUp, hij]
    | succ f2 =>
      simp only [partitionUp]
      split_ifs
      · exact ih f2 (i + 1) (by omega) (by omega)
      · rfl

theorem partitionEqualUp_fuel (x : Cards) (a j : Nat) :
    ∀ (f1 f2 i : Nat), j + 1 - i ≤ f1 → j + 1 - i ≤ f2 →
      partitionEqualUp x a j f1 i = partitionEqualUp x a j f2 i := by
  intro f1
  induction f1 with
  | zero =>
    intro f2 i h1 _
    cases f2 with
    | zero => rfl
    | succ f2 =>
      have hij : ¬ i ≤ j := by omega
      simp [partitionEqualUp, hij]
  | succ f1 ih =>
    intro f2 i h1 h2
    cases f2 with
    | zero =>
      have hij : ¬ i ≤ j := by omega
      simp [partitionEqualUp, hij]
    | succ f2 =>
      simp only [partitionEqualUp]
      split_ifs
      · exact ih f2 (i + 1) (by omega) (by omega)
      · rfl

theorem partialScan_fuel (x : Cards) (b : Nat) :
    ∀ (f1 f2 i : Nat), b - i ≤ f1 → b - i ≤ f2 →
      partialScan x b f1 i = partialScan x b f2 i := by
  intro f1
  induction f1 with
  | zero =>
    intro f2 i h1 _
    cases f2 with
    | zero => rfl
    | succ f2 =>
      have hib : ¬ i < b := by omega
      simp [partialScan, hib]
  | succ f1 ih =>
    intro f2 i h1 h2
    cases f2 with
    | zero =>
      have hib : ¬ i < b := by omega
      simp [partialScan, hib]
    | succ f2 =>
      simp only [partialScan]
      split_ifs
      · exact ih f2 (i + 1) (by omega) (by omega)
      · rfl

theorem partialShiftRight_fuel (b : Nat) :
    ∀ (f1 f2 j : Nat) (x : Cards), b - j ≤ f1 → b - j ≤ f2 →
      partialShiftRight b f1 j x = partialShiftRight b f2 j x := by
  intro f1
  induction f1 with
  | zero =>
    intro f2 j x h1 _
    cases f2 with
    | zero => rfl
    | succ f2 =>
      have hjb : ¬ j < b := by omega
      simp [partialShiftRight, hjb]
  | succ f1 ih =>
    intro f2 j x h1 h2
    cases f2 with
    | zero =>
      have hjb : ¬ j < b := by omega
      simp [partialShiftRight, hjb]
    | succ f2 =>
      simp only [partialShiftRight]
      split_ifs
      · rfl
      · exact ih f2 (j + 1) _ (by omega) (by omega)
      · rfl

theorem reverseLoop_fuel :
    ∀ (f1 f2 i j : Nat) (x : Cards), j - i ≤ f1 → j - i ≤ f2 →
      reverseLoop f1 i j x = reverseLoop f2 i j x := by
  intro f1
  induction f1 with
  | zero =>
    intro f2 i j x h1 _
    cases f2 with
    | zero => rfl
    | succ f2 =>
      have hij : ¬ i < j := by omega
      simp [reverseLoop, hij]
  | succ f1 ih =>
    intro f2 i j x h1 h2
    cases f2 with
    | zero =>
      have hij : ¬ i < j := by omega
      simp [reverseLoop, hij]
    | succ f2 =>
      simp only [reverseLoop]
      split_ifs
      · exact ih f2 (i + 1) (j - 1) _ (by omega) (by omega)
      · rfl

theorem siftDownLoop_fuel (hi first : Nat) :
    ∀ (f1 f2 root : Nat) (x : Cards), hi ≤ root + f1 → hi ≤ root + f2 →
      siftDownLoop hi first f1 root x = siftDownLoop hi first f2 root x := by
  intro f1
  induction f1 with
  | zero =>
    intro f2 root x h1 _
    cases f2 with
    | zero => rfl
    | succ f2 =>
      have hc : hi ≤ 2 * root + 1 := by omega
      simp [siftDownLoop, hc]
  | succ f1 ih =>
    intro f2 root x h1 h2
    cases f2 with
    | zero =>
      have hc : hi ≤ 2 * root + 1 := by omega
      simp [siftDownLoop, hc]
    | succ f2 =>
      simp only [siftDownLoop]
      split_ifs
      · rfl
      · rfl
      · exact ih f2 _ _ (by omega) (by omega)
      · rfl
      · exact ih f2 _ _ (by omega) (by omega)

theorem partitionUp_ge (x : Cards) (a j : Nat) :
    ∀ (fuel i : Nat), i ≤ partitionUp x a j fuel i := by
  intro fuel
  induction fuel with
  | zero => intro i; exact le_refl _
  | succ fuel ih =>
    intro i
    simp only [partitionUp]
    split_ifs
    · exact le_trans (Nat.le_succ i) (ih (i + 1))
    · exact le_refl _

theorem partitionDown_le (x : Cards) (a i : Nat) :
    ∀ (j : Nat), partitionDown x a i j ≤ j := by
  intro j
  induction j with
  | zero => exact le_refl _
  | succ j ih =>
    simp only [partitionDown]
    split_ifs
    · exact le_trans ih (Nat.le_succ j)
    · exact le_refl _

theorem partitionDown_done (x : Cards) (a i j : Nat) (h : j < i) :
    partitionDown x a i j = j := by
  cases j with
  | zero => rfl
  | succ j =>
    have : ¬ i ≤ j + 1 := by omega
    simp [partitionDown, this]

theorem partitionLoop_fuel (a : Nat) :
    ∀ (f1 f2 i j : Nat) (x : Cards), j + 1 - i ≤ f1 → j + 1 - i ≤ f2 →
      partitionLoop a f1 i j x = partitionLoop a f2 i j x := by
  have hzero : ∀ (f i j : Nat) (x : Cards), j + 1 - i ≤ 0 →
      partitionLoop a (f + 1) i j x = (j, x) := by
    intro f i j x h
    have h0 : j + 1 - i = 0 := by omega
    simp only [partitionLoop, h0, partitionUp]
    rw [partitionDown_done x a i j (by omega)]
    simp only [if_pos (show j < i by omega)]
  intro f1
  induction f1 with
  | zero =>
    intro f2 i j x h1 _
    cases f2 with
    | zero => rfl
    | succ f2 => rw [hzero f2 i j x h1]; rfl
  | succ f1 ih =>
    intro f2 i j x h1 h2
    cases f2 with
    | zero => rw [hzero f1 i j x h2]; rfl
    | succ f2 =>
      simp only [partitionLoop]
      have hu := partitionUp_ge x a j (j + 1 - i) i
      have hd := partitionDown_le x a (partitionUp x a j (j + 1 - i) i) j
      generalize partitionUp x a j (j + 1 - i) i = i' at *
      generalize partitionDown x a i' j = j' at *
      split_ifs with hc
      · rfl
      · exact ih f2 (i' + 1) (j' - 1) _ (by omega) (by omega)

theorem partitionEqualUp_ge (x : Cards) (a j : Nat) :
    ∀ (fuel i : Nat), i ≤ partitionEqualUp x a j fuel i := by
  intro fuel
  induction fuel with
  | zero => intro i; exact le_refl _
  | succ fuel ih =>
    intro i
    simp only [partitionEqualUp]
    split_ifs
    · exact le_trans (Nat.le_succ i) (ih (i + 1))
    · exact le_refl _

theorem partitionEqualDown_le (x : Cards) (a i : Nat) :
    ∀ (j : Nat), partitionEqualDown x a i j ≤ j := by
  intro j
  induction j with
  | zero => exact le_refl _
  | succ j ih =>
    simp only [partitionEqualDown]
    split_ifs
    · exact le_trans ih (Nat.le_succ j)
    · exact le_refl _

theorem partitionEqualDown_done (x : Cards) (a i j : Nat) (h : j < i) :
    partitionEqualDown x a i j = j := by
  cases j with
  | zero => rfl
  | succ j =>
    have : ¬ i ≤ j + 1 := by omega
    simp [partitionEqualDown, this]

theorem partitionEqualLoop_fuel (a : Nat) :
    ∀ (f1 f2 i j : Nat) (x : Cards), j + 1 - i ≤ f1 → j + 1 - i ≤ f2 →
      partitionEqualLoop a f1 i j x = partitionEqualLoop a f2 i j x := by
  have hzero : ∀ (f i j : Nat) (x : Cards), j + 1 - i ≤ 0 →
      partitionEqualLoop a (f + 1) i j x = (i, x) := by
    intro f i j x h
    have h0 : j + 1 - i = 0 := by omega
    simp only [partitionEqualLoop, h0, partitionEqualUp]
    rw [partitionEqualDown_done x a i j (by omega)]
    simp only [if_pos (show j < i by omega)]
  intro f1
  induction f1 with
  | zero =>
    intro f2 i j x h1 _
    cases f2 with
    | zero => rfl
    | succ f2 => rw [hzero f2 i j x h1]; rfl
  | succ f1 ih =>
    intro f2 i j x h1 h2
    cases f2 with
    | zero => rw [hzero f1 i j x h2]; rfl
    | succ f2 =>
      simp only [partitionEqualLoop]
      have hu := partitionEqualUp_ge x a j (j + 1 - i) i
      have hd := partitionEqualDown_le x a (partitionEqualUp x a j (j + 1 - i) i) j
      generalize partitionEqualUp x a j (j + 1 - i) i = i' at *
      generalize partitionEqualDown x a i' j = j' at *
      split_ifs with hc
      · rfl
      · exact ih f2 (i' + 1) (j' - 1) _ (by omega) (by omega)

theorem pdqsortLoop_fuel :
    ∀ (f1 f2 : Nat) (x : Cards) (a b limit : Nat) (wb wp : Bool),
      a ≤ b → b ≤ x.length → b - a ≤ f1 → b - a ≤ f2 → LeftBound x a b →
      pdqsortLoop f1 x a b limit wb wp = pdqsortLoop f2 x a b limit wb wp := by
  have hzero : ∀ (f : Nat) (x : Cards) (a b limit : Nat) (wb wp : Bool), b - a ≤ 0 →
      pdqsortLoop (f + 1) x a b limit wb wp = insertionSort x a b := by
    intro f x a b limit wb wp h
    unfold pdqsortLoop
    simp only []
    rw [if_pos (by omega)]
  intro f1
  induction f1 with
  | zero =>
    intro f2 x a b limit wb wp _ _ h1 _ _
    cases f2 with
    | zero => rfl
    | succ f2 => rw [hzero f2 x a b limit wb wp h1]; rfl
  | succ f1 ih =>
    intro f2 x a b limit wb wp hab hb h1 h2 hL
    cases f2 with
    | zero => rw [hzero f1 x a b limit wb wp h2]; rfl
    | succ f2 =>
      unfold pdqsortLoop
      simp only []
      by_cases h12 : b - a ≤ 12
      · rw [if_pos h12, if_pos h12]
      rw [if_neg h12, if_neg h12]
      by_cases hlim : limit = 0
      · rw [if_pos hlim, if_pos hlim]
      rw [if_neg hlim, if_neg hlim]
      have hsw1 : Swaps a b x (if (!wb) = true then breakPatterns x a b else x) := by
        split_ifs
        · exact breakPatterns_swaps x a b
        · exact Swaps.refl _
      generalize (if (!wb) = true then breakPatterns x a b else x) = d1 at *
      generalize (if (!wb) = true then limit - 1 else limit) = limit' at *
      have hl1 : b ≤ d1.length := by rw [hsw1.length_eq]; exact hb
      have hcp := choosePivot_range d1 a b (by omega)
      generalize choosePivot d1 a b = ph at *
      generalize decide (ph.2 = sortedHint.decreasingHint) = rev at *
      have hsw2 : Swaps a b d1 (if rev = true then reverseRange d1 a b else d1) := by
        split_ifs
        · exact reverseRange_swaps d1 a b (by omega)
        · exact Swaps.refl _
      generalize (if rev = true then reverseRange d1 a b else d1) = d2 at *
      have hl2 : b ≤ d2.length := by rw [hsw2.length_eq]; exact hl1
      have hL2 : LeftBound d2 a b := hsw2.leftBound hl1 (hsw1.leftBound hb hL)
      have hpiv : a ≤ (if rev = true then b - 1 - (ph.1 - a) else ph.1) ∧
          (if rev = true then b - 1 - (ph.1 - a) else ph.1) < b := by
        split_ifs <;> omega
      generalize (if rev = true then b - 1 - (ph.1 - a) else ph.1) = pivot at *
      generalize (wb && wp && decide ((if rev = true then sortedHint.increasingHint else ph.2)
        = sortedHint.increasingHint)) = cnd at *
      have hpis : Swaps a b d2
          (if cnd = true then partialInsertionSort d2 a b else (d2, false)).1 := by
        split_ifs
        · exact (partialInsertionSort_spec d2 a b (by omega) hl2 hL2).1
        · exact Swaps.refl _
      generalize (if cnd = true then partialInsertionSort d2 a b else (d2, false)) = pis at *
      have hsw3 : Swaps a b x pis.1 := (hsw1.trans hsw2).trans hpis
      by_cases hdone : pis.2 = true
      · rw [if_pos hdone, if_pos hdone]
      rw [if_neg hdone, if_neg hdone]
      have hl3 : b ≤ pis.1.length := by rw [hsw3.length_eq]; exact hb
      have hL3 : LeftBound pis.1 a b := hsw3.leftBound hb hL
      generalize pis.1 = d3 at *
      by_cases heq : (decide (0 < a) && !d3.Less (a - 1) pivot) = true
      · rw [if_pos heq, if_pos heq]
        obtain ⟨e1, e2, e3, e4, e5⟩ := partitionEqual_spec d3 a b pivot hpiv.1 hpiv.2 hl3
        generalize partitionEqual d3 a b pivot = pe at *
        have hle : b ≤ pe.1.length := by rw [e1.length_eq]; exact hl3
        exact ih f2 pe.1 pe.2 b limit' wb wp e3 hle (by omega) (by omega)
          (fun _ k hk hk' => le_of_lt (lt_of_le_of_lt (e4 (pe.2 - 1) (by omega) (by omega))
            (e5 k hk hk')))
      · rw [if_neg heq, if_neg heq]
        obtain ⟨q1, q2, q3, q4, q5⟩ := partition_spec d3 a b pivot hpiv.1 hpiv.2 hl3
        generalize partition d3 a b pivot = pr at *
        obtain ⟨d4, mid, wp'⟩ := pr
        simp only [] at q1 q2 q3 q4 q5 ⊢
        have hl4 : b ≤ d4.length := by rw [q1.length_eq]; exact hl3
        have hL4 : LeftBound d4 a b := q1.leftBound hl3 hL3
        by_cases hside : mid - a < b - mid
        · rw [if_pos hside, if_pos hside]
          have hLl := LeftBound.shrink d4 a b mid hL4 (by omega)
          rw [ih f2 d4 a mid limit' true true q2 (by omega) (by omega) (by omega) hLl]
          obtain ⟨l1, _⟩ := pdqsortLoop_spec f2 d4 a mid limit' true true q2 (by omega)
            (by omega) hLl
          generalize pdqsortLoop f2 d4 a mid limit' true true = d5 at *
          have hl5 : b ≤ d5.length := by rw [l1.length_eq]; exact hl4
          have hm5 : nm d5 mid = nm d4 mid := l1.nm_outside (by omega) mid (by omega)
          refine ih f2 d5 (mid + 1) b limit' _ wp' (by omega) hl5 (by omega) (by omega) ?_
          intro _ k hk hk'
          have : mid + 1 - 1 = mid := by omega
          rw [this, hm5, l1.nm_outside (by omega) k (by omega)]
          exact q5 k (by omega) hk'
        · rw [if_neg hside, if_neg hside]
          have hLr : LeftBound d4 (mid + 1) b :=
            fun _ k hk hk' => by simpa using q5 k (by omega) hk'
          rw [ih f2 d4 (mid + 1) b limit' true true (by omega) hl4 (by omega) (by omega) hLr]
          obtain ⟨r1, _⟩ := pdqsortLoop_spec f2 d4 (mid + 1) b limit' true true (by omega) hl4
            (by omega) hLr
          generalize pdqsortLoop f2 d4 (mid + 1) b limit' true true = d5 at *
          have hl5 : b ≤ d5.length := by rw [r1.length_eq]; exact hl4
          have hL5 : LeftBound d5 a b :=
            (r1.mono (show a ≤ mid + 1 by omega) (le_refl _)).leftBound hl4 hL4
          exact ih f2 d5 a mid limit' _ wp' q2 (by omega) (by omega) (by omega)
            (LeftBound.shrink d5 a b mid hL5 (by omega))

/-- Any bound of at least `b - a` rounds gives the result of `pdqsort`. -/
theorem pdqsort_fuel (x : Cards) (a b limit extra : Nat) (hab : a ≤ b) (hb : b ≤ x.length)
    (hL : LeftBound x a b) :
    pdqsortLoop (b - a + extra) x a b limit true true = pdqsort x a b limit :=
  pdqsortLoop_fuel _ _ x a b limit true true hab hb (by omega) (le_refl _) hL

/-- C1: the unique id of a card is its id, a dot and its foiling label when
its edition label is empty, and that followed by a dot and the edition label
otherwise; with edition `"N"` and a foiling code of the table, it is the id, a
dot and the foiling label, with no edition suffix. -/
theorem uniqueID_concatenation (c : Card) :
    (mapIndex edition c.Edition = "" →
      uniqueID c = c.ID ++ "." ++ mapIndex foiling c.Foiling) ∧
    (mapIndex edition c.Edition ≠ "" →
      uniqueID c = c.ID ++ "." ++ mapIndex foiling c.Foiling ++ "." ++ mapIndex edition c.Edition) ∧
    (∀ code label, (code, label) ∈ foiling → c.Foiling = code → c.Edition = "N" →
      uniqueID c = c.ID ++ "." ++ label) := by
  refine ⟨?_, ?_, ?_⟩
  · intro h
    simp [uniqueID, h]
  · intro h
    simp [uniqueID, h]
  · intro code label hmem hf he
    have hed : mapIndex edition c.Edition = "" := by rw [he]; decide
    have hfl : mapIndex foiling code = label := by
      simp only [foiling, List.mem_cons, Prod.mk.injEq, List.mem_singleton, List.not_mem_nil, or_false] at hmem
      rcases hmem with ⟨rfl, rfl⟩ | ⟨rfl, rfl⟩ | ⟨rfl, rfl⟩ | ⟨rfl, rfl⟩ <;> decide
    simp [uniqueID, hed, hf, hfl]

/-- C6: the two lookups yield the labels of their tables and the empty
string for every other code (`"X"` among them); being total functions, the
lookups and `uniqueID` yield a string for every code, and a card with two
unknown codes gets its id followed by a dot. -/
theorem label_lookups_total :
    mapIndex edition "A" = "Alpha" ∧ mapIndex edition "F" = "1st" ∧
    mapIndex edition "U" = "Unl" ∧ mapIndex edition "N" = "" ∧
    (∀ k, k ∉ ["A", "F", "U", "N"] → mapIndex edition k = "") ∧
    mapIndex foiling "S" = "NF" ∧ mapIndex foiling "R" = "RF" ∧
    mapIndex foiling "C" = "CF" ∧ mapIndex foiling "G" = "GF" ∧
    mapIndex foiling "X" = "" ∧
    (∀ k, k ∉ ["S", "R", "C", "G"] → mapIndex foiling k = "") ∧
    (∀ c : Card, c.Foiling ∉ ["S", "R", "C", "G"] → c.Edition ∉ ["A", "F", "U", "N"] →
      uniqueID c = c.ID ++ ".") := by
  refine ⟨by decide, by decide, by decide, by decide, mapIndex_edition_other,
    by decide, by decide, by decide, by decide, by decide, mapIndex_foiling_other, ?_⟩
  intro c hf he
  simp [uniqueID, mapIndex_edition_other _ he, mapIndex_foiling_other _ hf]

/-- C7: two cards with the same id, foiling code and edition code have the
same unique id, whatever their other fields. -/
theorem uniqueID_depends_on_printing_only (c1 c2 : Card) (hid : c1.ID = c2.ID)
    (hf : c1.Foiling = c2.Foiling) (he : c1.Edition = c2.Edition) :
    uniqueID c1 = uniqueID c2 := by
  simp [uniqueID, hid, hf, he]

/-- Witness for C7: two records of one printing that differ in name, types,
rarity and the unique id of the dataset. -/
theorem uniqueID_depends_on_printing_only_witness :
    uniqueID { (default : Card) with ID := "WTR001", Foiling := "C", Edition := "A", Name := "Heart of Fyendal", UniqueID := "x1", Types := ["Gem"] }
      = uniqueID { (default : Card) with ID := "WTR001", Foiling := "C", Edition := "A", Name := "Other", Rarity := "F" } :=
  uniqueID_depends_on_printing_only _ _ rfl rfl rfl


/-- C10: on cards whose edition code is one of A, F, U, N, whose foiling
code is one of S, R, C, G and whose id holds no dot, equal unique ids force
equal id, foiling code and edition code. -/
theorem uniqueID_injective_on_printings (c1 c2 : Card)
    (he1 : c1.Edition ∈ ["A", "F", "U", "N"]) (hf1 : c1.Foiling ∈ ["S", "R", "C", "G"])
    (he2 : c2.Edition ∈ ["A", "F", "U", "N"]) (hf2 : c2.Foiling ∈ ["S", "R", "C", "G"])
    (hd1 : '.' ∉ c1.ID.data) (hd2 : '.' ∉ c2.ID.data)
    (h : uniqueID c1 = uniqueID c2) :
    c1.ID = c2.ID ∧ c1.Foiling = c2.Foiling ∧ c1.Edition = c2.Edition := by
  have hdata := congrArg String.data h
  rw [uniqueID_data, uniqueID_data] at hdata
  obtain ⟨hid, hs⟩ := append_dot_cancel _ _ _ _ hd1 hd2 hdata
  have hsfx : printingSuffix c1.Foiling c1.Edition = printingSuffix c2.Foiling c2.Edition :=
    String.ext hs
  obtain ⟨hf, he⟩ := printingSuffix_injective _ hf1 _ he1 _ hf2 _ he2 hsfx
  exact ⟨String.ext hid, hf, he⟩

/-- Witness for C10: two records of the cold-foil Alpha printing WTR001. -/
theorem uniqueID_injective_on_printings_witness :
    ({ (default : Card) with ID := "WTR001", Foiling := "C", Edition := "A", Name := "x" } : Card).ID
      = ({ (default : Card) with ID := "WTR001", Foiling := "C", Edition := "A" } : Card).ID ∧
    ({ (default : Card) with ID := "WTR001", Foiling := "C", Edition := "A", Name := "x" } : Card).Foiling
      = ({ (default : Card) with ID := "WTR001", Foiling := "C", Edition := "A" } : Card).Foiling ∧
    ({ (default : Card) with ID := "WTR001", Foiling := "C", Edition := "A", Name := "x" } : Card).Edition
      = ({ (default : Card) with ID := "WTR001", Foiling := "C", Edition := "A" } : Card).Edition :=
  uniqueID_injective_on_printings _ _ (by decide) (by decide) (by decide) (by decide)
    (by decide) (by decide) (by decide)

/-- C5: the rendered name is the name between two double quotes when the
name holds a comma and the name itself when it holds none; so it is the
quote-wrapped name exactly when the name holds a comma. -/
theorem rowName_quoting (c : Card) :
    (',' ∈ c.Name.data → rowName c = "\"" ++ c.Name ++ "\"") ∧
    (',' ∉ c.Name.data → rowName c = c.Name) ∧
    (rowName c = "\"" ++ c.Name ++ "\"" ↔ ',' ∈ c.Name.data) ∧
    rowName (printing "WTR038" "Bravo, the Brash" "S") = "\"Bravo, the Brash\"" ∧
    rowName (printing "CRU079" "Sabre" "S") = "Sabre" := by
  have hyes : ',' ∈ c.Name.data → rowName c = "\"" ++ c.Name ++ "\"" := by
    intro h
    simp [rowName, (stringsContains_comma c.Name).2 h]
  have hno : ',' ∉ c.Name.data → rowName c = c.Name := by
    intro h
    have : stringsContains c.Name "," = false := by
      rw [← Bool.not_eq_true, stringsContains_comma]; exact h
    simp [rowName, this]
  refine ⟨hyes, hno, ⟨?_, hyes⟩, by decide, by decide⟩
  intro h
  by_contra hc
  rw [hno hc] at h
  have hlen := congrArg String.length h
  rw [String.length_append, String.length_append] at hlen
  have hq : "\"".length = 1 := rfl
  omega

/-- C4: a rendered line is the twelve fields in their fixed order, joined by
single commas and ended by one newline; the inner loop appends to the content
the lines of the sorted records; a run whose downloads and decodings succeed
writes to `cards.csv`, starting from empty content (so with no header line),
exactly the concatenation of the lines of the records it read and decoded,
and a run never writes anything else. -/
theorem rendered_line_layout :
    (∀ c : Card, renderRow c =
      ",".intercalate [uniqueID c, c.ID, rowName c, c.Pitch, mapIndex foiling c.Foiling,
        mapIndex edition c.Edition, c.Rarity, c.Cost, c.Power, c.Defense, c.ImageURL,
        ",".intercalate c.Types] ++ "\n") ∧
    (∀ (content : String) (cards : Cards),
      appendRows content cards = content ++ String.join ((sortSort cards).map renderRow)) ∧
    (∀ (httpGet : String → Except String Response) (unmarshal : String → Except String Cards)
      (update : Bool) (branch : String) (rangeUpdate rangeGenerate : List (String × String))
      (fs : FileSystem) (byLocale : List Cards),
      updateError httpGet update branch rangeUpdate fs = none →
      List.Forall₂ (fun cc cards =>
        readAndDecode unmarshal (afterUpdate httpGet update branch rangeUpdate fs) cc = .ok cards)
        (rangeGenerate.map Prod.fst) byLocale →
      (main httpGet unmarshal update branch rangeUpdate rangeGenerate fs).written
        = [("cards.csv", String.join ((emittedOrder byLocale).map renderRow))]) ∧
    (∀ (httpGet : String → Except String Response) (unmarshal : String → Except String Cards)
      (update : Bool) (branch : String) (rangeUpdate rangeGenerate : List (String × String))
      (fs : FileSystem) (path content : String),
      (path, content) ∈ (main httpGet unmarshal update branch rangeUpdate rangeGenerate fs).written →
      ∃ byLocale : List Cards,
        List.Forall₂ (fun cc cards =>
          readAndDecode unmarshal (afterUpdate httpGet update branch rangeUpdate fs) cc
            = .ok cards) (rangeGenerate.map Prod.fst) byLocale ∧
        byLocale.length = rangeGenerate.length ∧
        path = "cards.csv" ∧
        content = String.join ((emittedOrder byLocale).map renderRow)) := by
  refine ⟨?_, appendRows_eq, ?_, ?_⟩
  · intro c
    simp [renderRow, stringsJoin, String.intercalate, String.intercalate.go, String.append_assoc]
  · intro httpGet unmarshal update branch rangeUpdate rangeGenerate fs byLocale hup hdec
    exact main_written httpGet unmarshal update branch rangeUpdate rangeGenerate fs byLocale
      hup hdec
  · intro httpGet unmarshal update branch rangeUpdate rangeGenerate fs path content hmem
    obtain ⟨bl, hall, hp, hc⟩ := main_written_inv httpGet unmarshal update branch rangeUpdate
      rangeGenerate fs path content hmem
    exact ⟨bl, hall, by simpa using hall.length_eq.symm, hp, hc⟩

/-- Witness for C4: the run without update on `enCache` writes the two lines
of the two decoded records, and nothing before them. -/
theorem rendered_line_layout_witness :
    (main offline decodeTwoCards false "develop" cardsURLs cardsURLs enCache).written
      = [("cards.csv", "WTR001.NF.Unl,WTR001,Anothos,,NF,Unl,,,,,,\n" ++
          "WTR090.NF.Unl,WTR090,Sink Below,,NF,Unl,,,,,,\n")] :=
  (rendered_line_layout.2.2.1 offline decodeTwoCards false "develop" cardsURLs cardsURLs enCache
    [twoCards] rfl (List.Forall₂.cons rfl List.Forall₂.nil)).trans (by decide)

/-- C9: when reading or decoding the cache file of some configured locale
fails, the run ends in an error, makes no call of `os.WriteFile` and leaves
`cards.csv` as it was; in every run `cards.csv` is written at most once, only
after every locale has been read and decoded, with the complete catalog. -/
theorem main_fail_fast (httpGet : String → Except String Response)
    (unmarshal : String → Except String Cards) (update : Bool) (branch : String)
    (rangeUpdate rangeGenerate : List (String × String)) (fs : FileSystem) :
    ((∃ cc ∈ rangeGenerate.map Prod.fst, ∀ cards,
        readAndDecode unmarshal (afterUpdate httpGet update branch rangeUpdate fs) cc ≠ .ok cards) →
      (main httpGet unmarshal update branch rangeUpdate rangeGenerate fs).fatal ≠ none ∧
      (main httpGet unmarshal update branch rangeUpdate rangeGenerate fs).written = [] ∧
      (main httpGet unmarshal update branch rangeUpdate rangeGenerate fs).fs.files "cards.csv"
        = fs.files "cards.csv") ∧
    (((main httpGet unmarshal update branch rangeUpdate rangeGenerate fs).written = [] ∧
      (main httpGet unmarshal update branch rangeUpdate rangeGenerate fs).fs.files "cards.csv"
        = fs.files "cards.csv") ∨
      ∃ byLocale : List Cards,
        List.Forall₂ (fun cc cards =>
          readAndDecode unmarshal (afterUpdate httpGet update branch rangeUpdate fs) cc = .ok cards)
          (rangeGenerate.map Prod.fst) byLocale ∧
        (main httpGet unmarshal update branch rangeUpdate rangeGenerate fs).written =
          [("cards.csv", String.join ((emittedOrder byLocale).map renderRow))]) := by
  have hkeep := afterUpdate_output httpGet update branch rangeUpdate fs
  unfold afterUpdate at hkeep ⊢
  unfold main
  cases hup : (if update = true then updateLoop httpGet branch rangeUpdate fs else (fs, none)) with
  | mk fs1 err =>
    rw [hup] at hkeep
    simp only at hkeep
    cases err with
    | some e =>
      simp only
      exact ⟨fun _ => ⟨by simp, trivial, hkeep⟩, Or.inl ⟨trivial, hkeep⟩⟩
    | none =>
      simp only
      cases hg : generateLoop unmarshal fs1 (rangeGenerate.map Prod.fst) "" with
      | error e =>
        simp only
        exact ⟨fun _ => ⟨by simp, trivial, hkeep⟩, Or.inl ⟨trivial, hkeep⟩⟩
      | ok out =>
        simp only
        constructor
        · intro hfail
          obtain ⟨e, he⟩ := generateLoop_error unmarshal fs1 _ "" hfail
          rw [he] at hg
          cases hg
        · right
          obtain ⟨bl, hall, hout⟩ := generateLoop_ok _ _ _ _ _ hg
          exact ⟨bl, hall, by rw [hout]; simp⟩

/-- Witness for C9: a run without update on `objectInCache`, whose cache file
for `en` holds a JSON object: the run ends in an error, writes nothing and
leaves the earlier catalog in place. -/
theorem main_fail_fast_witness :
    (main offline rejectObject false "develop" cardsURLs cardsURLs objectInCache).fatal ≠ none ∧
    (main offline rejectObject false "develop" cardsURLs cardsURLs objectInCache).written = [] ∧
    (main offline rejectObject false "develop" cardsURLs cardsURLs objectInCache).fs.files
      "cards.csv" = some "WTR001.NF.Unl,WTR001,Anothos\n" :=
  (main_fail_fast offline rejectObject false "develop" cardsURLs cardsURLs objectInCache).1
    ⟨"en", by decide, fun cards h => by
      have he : readAndDecode rejectObject
          (afterUpdate offline false "develop" cardsURLs objectInCache) "en"
          = .error "json: cannot unmarshal object into Go value of type main.Cards" := by
        rfl
      rw [he] at h
      cases h⟩

theorem flatMap_perm (f : Cards → Cards) (hf : ∀ cs, (f cs).Perm cs) (l : List Cards) :
    (l.flatMap f).Perm l.flatten := by
  induction l with
  | nil => simp
  | cons cs l ih =>
    simp only [List.flatMap_cons, List.flatten_cons]
    exact (hf cs).append ih

theorem emittedOrder_perm (byLocale : List Cards) :
    (emittedOrder byLocale).Perm byLocale.flatten :=
  flatMap_perm sortSort sortSort_perm byLocale

theorem emittedOrder_single (cards : Cards) : emittedOrder [cards] = sortSort cards := by
  simp [emittedOrder]

/-- C2 (as stated, refuted): on `thirteenCards` the order in which the inner
loop of `main` renders the records is not the stable sort by name: the
rainbow-foil printing of "Sink Below", seventh in the input, is rendered
before the standard printing, first in the input. -/
theorem sort_not_stable_on_thirteenCards :
    ¬ IsStableSortByName (sortSort thirteenCards) thirteenCards ∧
    (sortSort thirteenCards).map uniqueID =
      ["WTR001.NF.Unl", "WTR002.NF.Unl", "WTR003.NF.Unl", "WTR004.NF.Unl", "WTR005.NF.Unl",
       "WTR006.NF.Unl", "WTR007.NF.Unl", "WTR008.NF.Unl", "WTR009.NF.Unl", "WTR010.NF.Unl",
       "WTR011.NF.Unl", "WTR090.RF.Unl", "WTR090.NF.Unl"] ∧
    appendRows "" thirteenCards =
      "WTR001.NF.Unl,WTR001,Anothos,,NF,Unl,,,,,,\n" ++
      "WTR002.NF.Unl,WTR002,Bravo,,NF,Unl,,,,,,\n" ++
      "WTR003.NF.Unl,WTR003,Crush Confidence,,NF,Unl,,,,,,\n" ++
      "WTR004.NF.Unl,WTR004,Debilitate,,NF,Unl,,,,,,\n" ++
      "WTR005.NF.Unl,WTR005,Emerging Power,,NF,Unl,,,,,,\n" ++
      "WTR006.NF.Unl,WTR006,Flic Flak,,NF,Unl,,,,,,\n" ++
      "WTR007.NF.Unl,WTR007,Glint the Quicksilver,,NF,Unl,,,,,,\n" ++
      "WTR008.NF.Unl,WTR008,Harmonized Kodachi,,NF,Unl,,,,,,\n" ++
      "WTR009.NF.Unl,WTR009,\"Ira, Crimson Haze\",,NF,Unl,,,,,,\n" ++
      "WTR010.NF.Unl,WTR010,Jubeel,,NF,Unl,,,,,,\n" ++
      "WTR011.NF.Unl,WTR011,Katsu,,NF,Unl,,,,,,\n" ++
      "WTR090.RF.Unl,WTR090,Sink Below,,RF,Unl,,,,,,\n" ++
      "WTR090.NF.Unl,WTR090,Sink Below,,NF,Unl,,,,,,\n" := by
  refine ⟨?_, ?_, ?_⟩
  · intro h
    have h2 := congrArg (List.map uniqueID) (h.2 "Sink Below")
    have h3 : (List.filter (fun c => decide (c.Name = "Sink Below"))
        (sortSort thirteenCards)).map uniqueID ≠
        (List.filter (fun c => decide (c.Name = "Sink Below")) thirteenCards).map uniqueID := by
      set_option maxRecDepth 100000 in decide
    exact h3 h2
  · set_option maxRecDepth 100000 in decide
  · set_option maxRecDepth 100000 in decide

/-- C2 (amended): the inner loop of `main` appends to the content the lines of
the records in the order `sort.Sort` leaves them, which has ascending names
and is a permutation of the decoded slice; a run over one locale whose
download and decoding succeed writes exactly those lines. No order is
stated among records of equal name. -/
theorem rendered_order_sorted :
    (∀ (content : String) (cards : Cards),
      appendRows content cards = content ++ String.join ((sortSort cards).map renderRow) ∧
      NamesAscending (sortSort cards) ∧ (sortSort cards).Perm cards) ∧
    (∀ (httpGet : String → Except String Response) (unmarshal : String → Except String Cards)
      (update : Bool) (branch : String) (rangeUpdate : List (String × String))
      (cc url : String) (fs : FileSystem) (cards : Cards),
      updateError httpGet update branch rangeUpdate fs = none →
      readAndDecode unmarshal (afterUpdate httpGet update branch rangeUpdate fs) cc = .ok cards →
      (main httpGet unmarshal update branch rangeUpdate [(cc, url)] fs).written
        = [("cards.csv", String.join ((sortSort cards).map renderRow))]) := by
  refine ⟨fun content cards =>
    ⟨appendRows_eq content cards, sortSort_namesAscending cards, sortSort_perm cards⟩, ?_⟩
  intro httpGet unmarshal update branch rangeUpdate cc url fs cards hup hdec
  have h := main_written httpGet unmarshal update branch rangeUpdate [(cc, url)] fs [cards] hup
    (List.Forall₂.cons hdec List.Forall₂.nil)
  rw [emittedOrder_single] at h
  exact h

/-- Witness for C2: the run without update on `enCache` decodes `twoCards`
and writes the lines of its two records with "Anothos" before "Sink Below". -/
theorem rendered_order_sorted_witness :
    (main offline decodeTwoCards false "develop" cardsURLs
      [("en", "https://raw.githubusercontent.com/the-fab-cube/flesh-and-blood-cards/%s/json/english/card-flattened.json")]
      enCache).written
      = [("cards.csv", String.join ((sortSort twoCards).map renderRow))] ∧
    (sortSort twoCards).map Card.Name = ["Anothos", "Sink Below"] :=
  ⟨rendered_order_sorted.2 offline decodeTwoCards false "develop" cardsURLs "en" _ enCache
    twoCards rfl rfl, by decide⟩

/-- C3: a run whose downloads and decodings succeed writes the lines of all
decoded records as one catalog, whose records are a permutation of the
concatenation of the decoded slices; with the locales that `cardsURLs`
configures, in whatever order the loop visits them, the names of the rows
of that catalog ascend from the first row to the last. -/
theorem whole_output_ascending (httpGet : String → Except String Response)
    (unmarshal : String → Except String Cards) (update : Bool) (branch : String)
    (rangeUpdate rangeGenerate : List (String × String)) (fs : FileSystem)
    (byLocale : List Cards)
    (hup : updateError httpGet update branch rangeUpdate fs = none)
    (hdec : List.Forall₂ (fun cc cards =>
      readAndDecode unmarshal (afterUpdate httpGet update branch rangeUpdate fs) cc = .ok cards)
      (rangeGenerate.map Prod.fst) byLocale) :
    (main httpGet unmarshal update branch rangeUpdate rangeGenerate fs).written
      = [("cards.csv", String.join ((emittedOrder byLocale).map renderRow))] ∧
    (emittedOrder byLocale).Perm byLocale.flatten ∧
    (rangeGenerate.Perm cardsURLs → NamesAscending (emittedOrder byLocale)) := by
  refine ⟨main_written httpGet unmarshal update branch rangeUpdate rangeGenerate fs byLocale
    hup hdec, emittedOrder_perm byLocale, fun hcfg => ?_⟩
  have hlen : byLocale.length = 1 := by
    have h1 := hdec.length_eq
    have h2 := hcfg.length_eq
    simp only [List.length_map] at h1
    rw [← h1, h2]
    rfl
  match byLocale, hlen with
  | [cards], _ =>
    rw [emittedOrder_single]
    exact sortSort_namesAscending cards

/-- Witness for C3: the run without update on `enCache` with the configured
locales writes a catalog whose names ascend. -/
theorem whole_output_ascending_witness :
    (main offline decodeTwoCards false "develop" cardsURLs cardsURLs enCache).written
      = [("cards.csv", String.join ((emittedOrder [twoCards]).map renderRow))] ∧
    (emittedOrder [twoCards]).Perm [twoCards].flatten ∧
    NamesAscending (emittedOrder [twoCards]) :=
  have h := whole_output_ascending offline decodeTwoCards false "develop" cardsURLs cardsURLs
    enCache [twoCards] rfl (List.Forall₂.cons rfl List.Forall₂.nil)
  ⟨h.1, h.2.1, h.2.2 (List.Perm.refl _)⟩

/-- C8: the inner loop of `main` appends one line per record of the slice:
the appended lines are a permutation of the lines of the input records, as
many as the input has records, each with the multiplicity it has in the
input; a run whose downloads and decodings succeed writes the lines of a
permutation of all decoded records, none dropped and none merged. -/
theorem rows_are_permutation_of_input :
    (∀ (content : String) (cards : Cards),
      appendRows content cards = content ++ String.join ((sortSort cards).map renderRow) ∧
      ((sortSort cards).map renderRow).Perm (cards.map renderRow) ∧
      ((sortSort cards).map renderRow).length = cards.length ∧
      ∀ row : String, ((sortSort cards).map renderRow).count row
        = (cards.map renderRow).count row) ∧
    (∀ (httpGet : String → Except String Response) (unmarshal : String → Except String Cards)
      (update : Bool) (branch : String) (rangeUpdate rangeGenerate : List (String × String))
      (fs : FileSystem) (byLocale : List Cards),
      updateError httpGet update branch rangeUpdate fs = none →
      List.Forall₂ (fun cc cards =>
        readAndDecode unmarshal (afterUpdate httpGet update branch rangeUpdate fs) cc = .ok cards)
        (rangeGenerate.map Prod.fst) byLocale →
      (main httpGet unmarshal update branch rangeUpdate rangeGenerate fs).written
        = [("cards.csv", String.join ((emittedOrder byLocale).map renderRow))] ∧
      ((emittedOrder byLocale).map renderRow).Perm (byLocale.flatten.map renderRow) ∧
      ((emittedOrder byLocale).map renderRow).length = byLocale.flatten.length) := by
  constructor
  · intro content cards
    have hp := (sortSort_perm cards).map renderRow
    exact ⟨appendRows_eq content cards, hp, by simp [sortSort_length],
      fun row => hp.count_eq row⟩
  · intro httpGet unmarshal update branch rangeUpdate rangeGenerate fs byLocale hup hdec
    have hp := (emittedOrder_perm byLocale).map renderRow
    refine ⟨main_written httpGet unmarshal update branch rangeUpdate rangeGenerate fs byLocale
      hup hdec, hp, ?_⟩
    have := hp.length_eq
    rw [List.length_map] at this ⊢
    rw [List.length_map] at this
    exact this

/-- Witness for C8: the run without update on `enCache` writes two lines for
the two decoded records. -/
theorem rows_are_permutation_of_input_witness :
    (main offline decodeTwoCards false "develop" cardsURLs cardsURLs enCache).written
      = [("cards.csv", String.join ((emittedOrder [twoCards]).map renderRow))] ∧
    ((emittedOrder [twoCards]).map renderRow).Perm ([twoCards].flatten.map renderRow) ∧
    ((emittedOrder [twoCards]).map renderRow).length = [twoCards].flatten.length :=
  rows_are_permutation_of_input.2 offline decodeTwoCards false "develop" cardsURLs cardsURLs
    enCache [twoCards] rfl (List.Forall₂.cons rfl List.Forall₂.nil)

end FabTracker
